import Mathlib

/-!
Shallow embedding of the core algorithms of the
`atlassian-frontend-changesets-wrapper` repository:

* `update-min-versions` (src/unnamed/part_005): the dependents graph builder
  and the minimum-version propagator that rewrites caret dependency ranges of
  unreleased dependents after minor releases.
* the changed-package resolution utilities (src/unnamed/part_002):
  `getChangedPackagesFromChangedFiles`, `getChangedPackagesWithChangedFiles`,
  the mandatory-changeset file filter and `getTransitiveDependencies`.

Modelling conventions:
* JavaScript objects used as string-keyed records are modelled as association
  lists `List (String × String)`; reading (`obj[k]`) is first-match lookup and
  writing (`obj[k] = v`) replaces the first entry with that key (appending if
  the key is absent), which agrees with JS objects whose keys are unique.
* JS `Map`s built by `new Map(list.map(x => [key x, x]))` keep the *last*
  binding for a duplicated key, so those lookups search from the end.
* In-place mutation of shared `Package` objects is modelled by threading the
  package list through the computation; a mutation of the object returned by
  `packagesByName.get(name)` becomes an update of the last list entry with
  that name (the entry the JS `Map` holds).
* `throw` becomes `Except.error`; I/O (`fs`, `git`, `console`) is dropped,
  with the would-be manifest writes and the commit decision returned as data.
* JS string values that may be `undefined` at runtime (a manifest without a
  `name` field, a missing dependency map) are modelled as `Option`.
* `String.startsWith` / `String.endsWith` of JS are modelled on character
  lists (`List.isPrefixOf` / `List.isSuffixOf`) so that all definitions are
  kernel-reducible.
-/

namespace AFCS

/-- JS `s.startsWith(pre)`. -/
def strStartsWith (s pre : String) : Bool := pre.data.isPrefixOf s.data

/-- JS `s.endsWith(post)`. -/
def strEndsWith (s post : String) : Bool := post.data.isSuffixOf s.data

/-- The three dependency categories iterated by `dependencyTypes` in
`update-min-versions`. -/
inductive DepType where
  | dependencies
  | devDependencies
  | peerDependencies
deriving DecidableEq

/-- `const dependencyTypes = ['dependencies', 'devDependencies', 'peerDependencies']`. -/
def dependencyTypes : List DepType :=
  [DepType.dependencies, DepType.devDependencies, DepType.peerDependencies]

/-- The fields of a `package.json` manifest used by the scripts.  `name` is
`Option` because a malformed manifest may lack it at runtime; the three
dependency maps are `Option` because they are optional fields (`dependencies?`
etc.), read in the source as `pkg.packageJson[depType]` with `|| {}` /
assertion guards. -/
structure PackageJson where
  name : Option String
  version : String
  dependencies : Option (List (String × String))
  devDependencies : Option (List (String × String))
  peerDependencies : Option (List (String × String))
deriving DecidableEq

/-- `pkg.packageJson[depType]`. -/
def PackageJson.depMap (pj : PackageJson) : DepType → Option (List (String × String))
  | DepType.dependencies => pj.dependencies
  | DepType.devDependencies => pj.devDependencies
  | DepType.peerDependencies => pj.peerDependencies

/-- Functional update of one dependency map of a manifest. -/
def PackageJson.setDepMap (pj : PackageJson) : DepType → List (String × String) → PackageJson
  | DepType.dependencies, m => { pj with dependencies := some m }
  | DepType.devDependencies, m => { pj with devDependencies := some m }
  | DepType.peerDependencies, m => { pj with peerDependencies := some m }

/-- A `@manypkg/get-packages` `Package`: directory plus manifest. -/
structure Package where
  dir : String
  packageJson : PackageJson
deriving DecidableEq

/-- A `@changesets/types` `ComprehensiveRelease` (the `changesets` list is
irrelevant to the propagator and omitted). -/
structure Release where
  name : String
  oldVersion : String
  newVersion : String
  type : String
deriving DecidableEq

/-- The `Dependency` record of `update-min-versions`: one edge of the
dependents graph. -/
structure Dependency where
  name : Option String
  versionRange : String
  depType : DepType
deriving DecidableEq

/-- JS object read `obj[k]`: first entry with key `k`. -/
def lookupKey : List (String × String) → String → Option String
  | [], _ => none
  | (k', v') :: rest, k => if k' == k then some v' else lookupKey rest k

/-- JS object write `obj[k] = v`: replace the first entry with key `k`
(JS object keys are unique), appending when the key is absent. -/
def setKey : List (String × String) → String → String → List (String × String)
  | [], k, v => [(k, v)]
  | (k', v') :: rest, k, v =>
    if k' == k then (k, v) :: rest else (k', v') :: setKey rest k v

/-- `graph.get(depName)` on the dependents graph `Map`. -/
def graphGet (g : List (String × List Dependency)) (k : String) : Option (List Dependency) :=
  (g.find? (fun p => p.1 == k)).map Prod.snd

/-- One `graph.set(depName, dependents)` step of the builder: push `d` onto
the entry for `k`, creating the entry if absent.  The builder never produces
duplicate keys, so replacing the first occurrence matches `Map.set`. -/
def graphAdd (g : List (String × List Dependency)) (k : String) (d : Dependency) :
    List (String × List Dependency) :=
  match g with
  | [] => [(k, [d])]
  | (k', ds) :: rest =>
    if k' == k then (k', ds ++ [d]) :: rest else (k', ds) :: graphAdd rest k d

/-- `getDependentsGraph` (update-min-versions): for each package, each
dependency category and each declared `(depName, versionRange)` entry, push an
edge onto the graph entry for `depName`. -/
def getDependentsGraphList (packages : List Package) : List (String × List Dependency) :=
  packages.foldl
    (fun g pkg =>
      dependencyTypes.foldl
        (fun g depType =>
          ((pkg.packageJson.depMap depType).getD []).foldl
            (fun g e =>
              graphAdd g e.1
                { name := pkg.packageJson.name, versionRange := e.2, depType := depType })
            g)
        g)
    []

/-- `getDependentsGraph` with an explicit error channel.  The TS function body
contains no `throw` and no fallible call, so the result is always `.ok`; the
`Except` codomain makes that absence of failure a statable fact. -/
def getDependentsGraph (packages : List Package) :
    Except String (List (String × List Dependency)) :=
  Except.ok (getDependentsGraphList packages)

/-- `releasesByName.get(n)` where
`releasesByName = new Map(releasePlan.releases.map(x => [x.name, x]))`:
for a duplicated name the `Map` holds the last release; an edge whose
dependent has no `name` (JS `undefined`) matches no string key. -/
def lookupRelease (releases : List Release) : Option String → Option Release
  | none => none
  | some s => (releases.reverse).find? (fun r => r.name == s)

/-- `packagesByName.get(n)` where
`packagesByName = new Map(packages.map(x => [x.packageJson.name, x]))`:
last binding wins; `undefined` is a legitimate `Map` key, so a nameless
dependent resolves to the last nameless package. -/
def lookupPackage (pkgs : List Package) (n : Option String) : Option Package :=
  (pkgs.reverse).find? (fun p => p.packageJson.name == n)

/-- Replace the first package (in list order) whose name is `n` by the same
package with dependency map `dt` set to `m`.  Helper for `updateLastPackage`. -/
def setFirstMatching (n : Option String) (dt : DepType) (m : List (String × String)) :
    List Package → List Package
  | [] => []
  | p :: ps =>
    if p.packageJson.name == n then
      { p with packageJson := p.packageJson.setDepMap dt m } :: ps
    else
      p :: setFirstMatching n dt m ps

/-- Mutation `dependentDeps[release.name] = ...` of the object returned by
`packagesByName.get(dep.name)`: the `Map` holds the last package with that
name, so the state update rewrites the last matching list entry. -/
def updateLastPackage (pkgs : List Package) (n : Option String) (dt : DepType)
    (m : List (String × String)) : List Package :=
  (setFirstMatching n dt m pkgs.reverse).reverse

/-- The loop body of `updateDependents`, threading the package state and
accumulating the names of the pushed `updatedDependents`.  For each edge:
skip it when the dependent is itself released with a version change; warn-skip
non-caret ranges; otherwise resolve the dependent (`throw` if absent), assert
its dependency map exists, and set the range for `release.name` to
`'^' + release.newVersion`. -/
def updateDependentsGo (release : Release) (releases : List Release) :
    List Dependency → List Package → List (Option String) →
    Except String (List Package × List (Option String))
  | [], pkgs, acc => Except.ok (pkgs, acc)
  | dep :: rest, pkgs, acc =>
    let shouldUpdate :=
      match lookupRelease releases dep.name with
      | none => true
      | some er => er.oldVersion == er.newVersion
    if shouldUpdate then
      if !(strStartsWith dep.versionRange "^") then
        -- console.warn: non-caret range, not updating
        updateDependentsGo release releases rest pkgs acc
      else
        match lookupPackage pkgs dep.name with
        | none => Except.error "Cannot find package"
        | some dependentPkg =>
          match dependentPkg.packageJson.depMap dep.depType with
          | none => Except.error "Missing dependency map"
          | some dependentDeps =>
            let newMap := setKey dependentDeps release.name ("^" ++ release.newVersion)
            updateDependentsGo release releases rest
              (updateLastPackage pkgs dep.name dep.depType newMap)
              (acc ++ [dep.name])
    else
      updateDependentsGo release releases rest pkgs acc

/-- `updateDependents(release, dependents, packagesByName, releasesByName)`. -/
def updateDependents (release : Release) (dependents : List Dependency)
    (pkgs : List Package) (releases : List Release) :
    Except String (List Package × List (Option String)) :=
  updateDependentsGo release releases dependents pkgs []

/-- `updatedDependents.add(dep)` on the JS `Set`: insertion order, no
duplicates.  Identity of a package object is its name, since every pushed
object is `packagesByName.get(name)`. -/
def addUnique (l : List (Option String)) (x : Option String) : List (Option String) :=
  if x ∈ l then l else l ++ [x]

/-- The release loop of `main`: for each `minor` release look up its
dependents (a missing graph entry is reported and skipped), update them, and
accumulate the updated dependents into the deduplicated set. -/
def processReleases (graph : List (String × List Dependency)) (releases : List Release) :
    List Release → List Package → List (Option String) →
    Except String (List Package × List (Option String))
  | [], pkgs, updated => Except.ok (pkgs, updated)
  | release :: rest, pkgs, updated =>
    if release.type == "minor" then
      match graphGet graph release.name with
      | none =>
        -- console.error: cannot find package marked for release; continue
        processReleases graph releases rest pkgs updated
      | some dependents =>
        match updateDependentsGo release releases dependents pkgs [] with
        | Except.error e => Except.error e
        | Except.ok (pkgs', names) =>
          processReleases graph releases rest pkgs' (names.foldl addUnique updated)
    else
      processReleases graph releases rest pkgs updated

/-- Outcome of a successful `update-min-versions` run: the final in-memory
package set, the names of the packages whose manifests are written
(`[...updatedDependents]`, written after the loop completes), and whether the
`git add`/`git commit` step runs (`updatedDependents.size > 0`). -/
structure RunResult where
  pkgs : List Package
  written : List (Option String)
  committed : Bool
deriving DecidableEq

/-- `main` of `update-min-versions`: build the dependents graph, run the
release loop, then (only if the loop completed without throwing) write each
updated dependent's manifest once and commit iff any package was updated.  An
error escapes before the write phase, leaving the on-disk package set
untouched. -/
def updateMinVersions (packages : List Package) (releasePlan : List Release) :
    Except String RunResult :=
  match getDependentsGraph packages with
  | Except.error e => Except.error e
  | Except.ok graph =>
    match processReleases graph releasePlan releasePlan packages [] with
    | Except.error e => Except.error e
    | Except.ok (pkgs', updated) =>
      Except.ok { pkgs := pkgs', written := updated, committed := !updated.isEmpty }

/-- The package reachable under name `n` declares, in dependency map `dt`,
the range `v` for dependency `k` (reading `obj[k]` of the manifest's map). -/
def HasRange (pkgs : List Package) (n : Option String) (dt : DepType) (k v : String) : Prop :=
  ∃ P, lookupPackage pkgs n = some P
    ∧ lookupKey ((P.packageJson.depMap dt).getD []) k = some v

/-- `v` is the target range written by some minor release of the plan for
dependency name `k`. -/
def TargetVal (plan : List Release) (k v : String) : Prop :=
  ∃ D ∈ plan, D.type = "minor" ∧ D.name = k ∧ v = "^" ++ D.newVersion

/-- Entry provenance invariant of a propagator run: every dependency entry of
the current package set either already belonged to a package of the same name
in the original set, or is a freshly written target range whose value is now
what a lookup of that dependent name and key returns. -/
def EntryInv (plan : List Release) (S0 S : List Package) : Prop :=
  ∀ p ∈ S, ∀ (dt : DepType) (k v : String),
    (k, v) ∈ (p.packageJson.depMap dt).getD [] →
    (∃ p₀ ∈ S0, p₀.packageJson.name = p.packageJson.name ∧
      (k, v) ∈ (p₀.packageJson.depMap dt).getD [])
    ∨ (TargetVal plan k v ∧ HasRange S p.packageJson.name dt k v)

/-- Saturation: every caret entry of an unreleased (or version-unchanged)
package whose key is a minor-released name already reads back as the target
range.  This is the post-state of a successful propagator run, and makes a
second run a no-op on the package state. -/
def Sat (plan : List Release) (S : List Package) : Prop :=
  ∀ p ∈ S, ∀ (dt : DepType) (k v : String),
    (k, v) ∈ (p.packageJson.depMap dt).getD [] →
    strStartsWith v "^" = true →
    (∀ r, lookupRelease plan p.packageJson.name = some r →
      r.oldVersion = r.newVersion) →
    ∀ D, D ∈ plan → D.type = "minor" → D.name = k →
    HasRange S p.packageJson.name dt k ("^" ++ D.newVersion)

/-! ## Changed-package resolution (src/unnamed/part_002)

The functions there first fetch the bolt project and workspaces and enrich
each workspace package with `relativeDir = path.relative(projectDir, pkg.dir)`.
The workspace listing and `path.relative` are external collaborators, so the
embedding takes the workspace list and a relativizing function as parameters.
`path.sep` is modelled as `"/"` (the scripts run on POSIX CI). -/

/-- A bolt workspace package (the fields these functions use). -/
structure BoltPackage where
  dir : String
  name : String
deriving DecidableEq

/-- A workspace package enriched with its project-relative directory. -/
structure AFPackageR where
  dir : String
  name : String
  relativeDir : String
deriving DecidableEq

/-- `workspaces.map(pkg => ({...pkg, relativeDir: path.relative(projectDir, pkg.dir)}))`. -/
def enrichPackages (rel : String → String) (workspaces : List BoltPackage) : List AFPackageR :=
  workspaces.map (fun p => { dir := p.dir, name := p.name, relativeDir := rel p.dir })

/-- `fileNameToPackage`: the first package whose directory followed by the
path separator is a prefix of the file path
(`allPackages.find(pkg => fileName.startsWith(pkg.dir + path.sep))`). -/
def fileNameToPackage (allPackages : List AFPackageR) (fileName : String) : Option AFPackageR :=
  allPackages.find? (fun pkg => strStartsWith fileName (pkg.dir ++ "/"))

/-- JS `.filter((x, idx, l) => l.indexOf(x) === idx)`: keep the first
occurrence of each element. -/
def dedupFirstAux [BEq α] (seen : List α) : List α → List α
  | [] => []
  | x :: xs =>
    if seen.contains x then dedupFirstAux seen xs
    else x :: dedupFirstAux (x :: seen) xs

/-- See `dedupFirstAux`. -/
def dedupFirst [BEq α] (l : List α) : List α := dedupFirstAux [] l

/-- `getChangedPackagesFromChangedFiles`: drop `bundle-size-ratchet.json`
files, resolve each remaining file to its owning package (dropping files
owned by no package — the `.filter(isDefined)` step), and deduplicate. -/
def getChangedPackagesFromChangedFiles (rel : String → String)
    (workspaces : List BoltPackage) (changedFiles : List String) : List AFPackageR :=
  let allPackages := enrichPackages rel workspaces
  dedupFirst
    ((changedFiles.filter (fun f => !(strEndsWith f "bundle-size-ratchet.json"))).filterMap
      (fileNameToPackage allPackages))

/-- One value of the `PackagesWithChangedFiles` record built by
`getChangedPackagesWithChangedFiles`: the changed files (project-relative)
plus the spread package fields. -/
structure PackageWithChangedFiles where
  changedFiles : List String
  pkg : AFPackageR
deriving DecidableEq

/-- JS record read `acc[packagename]` (records modelled as insertion-ordered
association lists). -/
def pwcfGet (acc : List (String × PackageWithChangedFiles)) (k : String) :
    Option PackageWithChangedFiles :=
  (acc.find? (fun p => p.1 == k)).map Prod.snd

/-- `acc[packagename].changedFiles.push(fileName)`. -/
def pwcfPushFile (acc : List (String × PackageWithChangedFiles)) (k : String)
    (file : String) : List (String × PackageWithChangedFiles) :=
  match acc with
  | [] => []
  | (k', v) :: rest =>
    if k' == k then (k', { v with changedFiles := v.changedFiles ++ [file] }) :: rest
    else (k', v) :: pwcfPushFile rest k file

/-- The `reduce` body of `getChangedPackagesWithChangedFiles`.  A file that
resolves to no package, or to a package with a falsy (empty) name, leaves the
accumulator unchanged; otherwise the project-relative file name is appended to
the package's entry, creating it if absent. -/
def gcpwcfStep (rel : String → String) (allPackages : List AFPackageR)
    (acc : List (String × PackageWithChangedFiles)) (fileName : String) :
    List (String × PackageWithChangedFiles) :=
  match fileNameToPackage allPackages fileName with
  | none => acc
  | some cp =>
    if cp.name == "" then acc
    else
      match pwcfGet acc cp.name with
      | some _ => pwcfPushFile acc cp.name (rel fileName)
      | none => acc ++ [(cp.name, { changedFiles := [rel fileName], pkg := cp })]

/-- `getChangedPackagesWithChangedFiles`: drop `bundle-size-ratchet.json`
files, group the rest by owning package, and return the record values in key
insertion order. -/
def getChangedPackagesWithChangedFiles (rel : String → String)
    (workspaces : List BoltPackage) (changedFiles : List String) :
    List PackageWithChangedFiles :=
  let allPackages := enrichPackages rel workspaces
  (((changedFiles.filter (fun f => !(strEndsWith f "bundle-size-ratchet.json"))).foldl
      (gcpwcfStep rel allPackages) [])).map Prod.snd

/-! ### The mandatory-changeset file filter

The three JS regexes are hand-compiled to character-list matchers.  `.` in a
JS regex matches any character except a line terminator (modelled as `'\n'`);
`String.prototype.match` is an unanchored search unless the pattern starts
with `^`. -/

/-- Search for `pat` from the current position, where every skipped character
is consumed by a `.*` and therefore must not be a newline; a trailing `.*`
after `pat` imposes nothing.  This is `^.*PAT.*` matching at the current
position. -/
def scanNoNL (pat : List Char) : List Char → Bool
  | [] => pat.isPrefixOf ([] : List Char)
  | c :: rest => pat.isPrefixOf (c :: rest) || (c != '\n' && scanNoNL pat rest)

/-- The suffix alternatives `(ts|js)x?$` of the test-file regex. -/
def extOk (l : List Char) : Bool :=
  l == "ts".data || l == "js".data || l == "tsx".data || l == "jsx".data

/-- `if pat.isPrefixOf l then drop it`. -/
def dropPrefixOpt (pat l : List Char) : Option (List Char) :=
  if pat.isPrefixOf l then some (l.drop pat.length) else none

/-- After `(examples|test)`, the regex requires `.(ts|js)x?$`. -/
def testFileAfterWord : List Char → Bool
  | [] => false
  | c :: rest => c != '\n' && extOk rest

/-- Match `.(examples|test).(ts|js)x?$` against the entire remaining input
(the leading `.*` of the unanchored pattern `.*.(examples|test).(ts|js)x?$`
can always match empty at any search start, so only this tail matters). -/
def testFileTail : List Char → Bool
  | [] => false
  | c :: rest =>
    c != '\n' &&
      ((match dropPrefixOpt "examples".data rest with
        | some r => testFileAfterWord r
        | none => false) ||
       (match dropPrefixOpt "test".data rest with
        | some r => testFileAfterWord r
        | none => false))

/-- Unanchored search: try the tail matcher at every position. -/
def anyPos (p : List Char → Bool) : List Char → Bool
  | [] => p []
  | c :: rest => p (c :: rest) || anyPos p rest

/-- `changedFile.match(new RegExp('.*.(examples|test).(ts|js)x?$')) != null`. -/
def matchesTestFile (s : String) : Bool := anyPos testFileTail s.data

/-- `changedFile.match(new RegExp('^.*/src/.*')) != null`. -/
def matchesInSrc (s : String) : Bool := scanNoNL "/src/".data s.data

/-- Matcher for `^.*/src/.*__tests__.*`: some `/src/` occurrence (reached over
non-newline characters from the start) followed, over non-newline characters,
by `__tests__`. -/
def testDirScan : List Char → Bool
  | [] => false
  | c :: rest =>
    ("/src/".data.isPrefixOf (c :: rest) && scanNoNL "__tests__".data ((c :: rest).drop 5)) ||
      (c != '\n' && testDirScan rest)

/-- `changedFile.match(new RegExp('^.*/src/.*__tests__.*')) != null`. -/
def matchesTestDir (s : String) : Bool := testDirScan s.data

/-- The changed-file filter of
`getChangedPackagesWithMandatoryChangesetSinceCommit`: test-directory and
test-file paths are rejected first; then `package.json` / `tsconfig.json`
suffixes (`definitelyNeedChangeset.find(pattern => changedFile.endsWith(pattern))`)
or files under a `src/` subtree are accepted; everything else is rejected. -/
def isRelevantToMandatoryChangeset (changedFile : String) : Bool :=
  if matchesTestDir changedFile || matchesTestFile changedFile then false
  else if (strEndsWith changedFile "package.json" ||
            strEndsWith changedFile "tsconfig.json") ||
          matchesInSrc changedFile then true
  else false

/-- `getChangedPackagesWithMandatoryChangesetSinceCommit`: filter the changed
files (supplied by `git.getChangedFilesSince`, an external collaborator) with
the mandatory-changeset predicate, then resolve them to packages. -/
def getChangedPackagesWithMandatoryChangesetSinceCommit (rel : String → String)
    (workspaces : List BoltPackage) (changedFiles : List String) : List AFPackageR :=
  getChangedPackagesFromChangedFiles rel workspaces
    (changedFiles.filter isRelevantToMandatoryChangeset)

/-! ### The transitive dependency walker (`getTransitiveDependencies`) -/

/-- `depGraph.get(k)` on the bolt dependency graph. -/
def lookupAdj (g : List (String × List String)) (k : String) : Option (List String) :=
  (g.find? (fun p => p.1 == k)).map Prod.snd

/-- Weight of a node in the termination measure of the BFS loop: one for the
node itself plus one for each of its outgoing edges. -/
def nodeWeight (g : List (String × List String)) (k : String) : Nat :=
  1 + ((lookupAdj g k).getD []).length

/-- Termination measure of the BFS loop: total weight of the unvisited graph
keys plus the queue length.  Visiting a node pays its weight; skipping an
already-visited node pays one queue slot. -/
def bfsMeasure (g : List (String × List String)) (visited queue : List String) : Nat :=
  Finset.sum ((g.map Prod.fst).toFinset \ visited.toFinset) (nodeWeight g) + queue.length

/-- The `while (queue.length)` loop of `getTransitiveDependencies`.  `n` is
`nodesUntilDepthIncrease`, `d` is `currentDepth`; the counter is decremented,
on reaching zero the depth increases and the counter resets to the current
queue length (the head not yet shifted), the loop breaks when the depth
reaches `depth + 1`, an already-visited head is skipped, and otherwise the
head is visited and its dependencies (an absent graph entry is an error) are
pushed. -/
def bfsLoop (g : List (String × List String)) (depth : Int) (visited queue : List String)
    (n d : Int) : Except String (List String) :=
  match queue with
  | [] => Except.ok visited
  | c :: rest =>
    let n1 := n - 1
    let nd : Int × Int := if n1 = 0 then (((c :: rest).length : Int), d + 1) else (n1, d)
    if nd.2 = depth + 1 then Except.ok visited
    else if hv : c ∈ visited then bfsLoop g depth visited rest nd.1 nd.2
    else
      match h : lookupAdj g c with
      | none => Except.error ("Cannot find " ++ c ++ " in dependency graph")
      | some deps => bfsLoop g depth (visited ++ [c]) (rest ++ deps) nd.1 nd.2
termination_by bfsMeasure g visited queue
decreasing_by
  · simp only [bfsMeasure, List.length_cons]
    omega
  · have hcg : c ∈ (g.map Prod.fst).toFinset \ visited.toFinset := by
      rw [Finset.mem_sdiff]
      refine ⟨?_, by simpa [List.mem_toFinset] using hv⟩
      rcases hfind : g.find? (fun p => p.1 == c) with _ | p
      · exfalso
        simp [lookupAdj, hfind] at h
      · have hp : p ∈ g := List.mem_of_find?_eq_some hfind
        have hpc : p.1 = c := by simpa using List.find?_some hfind
        simp only [List.mem_toFinset, List.mem_map]
        exact ⟨p, hp, hpc⟩
    have hset : (g.map Prod.fst).toFinset \ (visited ++ [c]).toFinset
        = ((g.map Prod.fst).toFinset \ visited.toFinset).erase c := by
      ext x
      simp only [Finset.mem_sdiff, Finset.mem_erase, List.mem_toFinset, List.mem_append,
        List.mem_singleton]
      tauto
    have hsum : Finset.sum (((g.map Prod.fst).toFinset \ visited.toFinset).erase c)
          (nodeWeight g) + nodeWeight g c
        = Finset.sum ((g.map Prod.fst).toFinset \ visited.toFinset) (nodeWeight g) :=
      Finset.sum_erase_add _ _ hcg
    have hw : nodeWeight g c = 1 + deps.length := by simp [nodeWeight, h]
    show Finset.sum ((g.map Prod.fst).toFinset \ (visited ++ [c]).toFinset) (nodeWeight g)
        + (rest ++ deps).length
      < Finset.sum ((g.map Prod.fst).toFinset \ visited.toFinset) (nodeWeight g)
        + (c :: rest).length
    rw [hset, List.length_append, List.length_cons, ← hsum, hw]
    omega

/-- `getTransitiveDependencies(pkgName, userOpts)`: run the BFS from
`pkgName` and remove the root from the visited set.  `depth` is
`userOpts.depth`, defaulting to `-100` when omitted; the dependency graph is
`userOpts.dependencyGraph` (or is fetched from bolt, an external
collaborator). -/
def getTransitiveDependencies (pkgName : String) (depth : Int)
    (depGraph : List (String × List String)) : Except String (List String) :=
  match bfsLoop depGraph depth [] [pkgName] 1 (-1) with
  | Except.error e => Except.error e
  | Except.ok visited => Except.ok (visited.erase pkgName)

/-- One step of the dependency relation of the walker's graph: `v` is listed
among `u`'s dependencies. -/
def edgeB (g : List (String × List String)) (u v : String) : Bool :=
  ((lookupAdj g u).getD []).contains v

/-- Reachability in the walker's dependency graph. -/
inductive Reaches (g : List (String × List String)) : String → String → Prop
  | refl (x : String) : Reaches g x x
  | step {x y z : String} : Reaches g x y → edgeB g y z = true → Reaches g x z

/-- Every dependency named anywhere in the graph has its own graph entry
(the well-formedness under which the walker cannot fail). -/
def closedB (g : List (String × List String)) : Bool :=
  g.all (fun p => p.2.all (fun d => (lookupAdj g d).isSome))

/-! ## Theorems -/

/-- A release loop over releases none of which is `minor` changes nothing. -/
theorem processReleases_skip_all (graph : List (String × List Dependency))
    (releases : List Release) (rs : List Release) (pkgs : List Package)
    (updated : List (Option String)) (h : ∀ r ∈ rs, r.type ≠ "minor") :
    processReleases graph releases rs pkgs updated = Except.ok (pkgs, updated) := by
  induction rs with
  | nil => rfl
  | cons r rest ih =>
    have hr : (r.type == "minor") = false := by
      have := h r (List.mem_cons_self r rest)
      simpa using this
    simp only [processReleases, hr, Bool.false_eq_true, if_false]
    exact ih (fun r' hr' => h r' (List.mem_cons_of_mem r hr'))

/-! ### Association-list and package-state lemmas -/

theorem lookupKey_setKey_self (m : List (String × String)) (k v : String) :
    lookupKey (setKey m k v) k = some v := by
  induction m with
  | nil => simp [setKey, lookupKey]
  | cons e rest ih =>
    by_cases h : e.1 = k
    · simp [setKey, lookupKey, h]
    · simpa [setKey, lookupKey, h] using ih

theorem lookupKey_setKey_ne (m : List (String × String)) (k v k' : String) (h : k' ≠ k) :
    lookupKey (setKey m k v) k' = lookupKey m k' := by
  induction m with
  | nil => simp [setKey, lookupKey, Ne.symm h]
  | cons e rest ih =>
    obtain ⟨k0, v0⟩ := e
    by_cases he : k0 = k
    · simp [setKey, lookupKey, he, h, Ne.symm h]
    · by_cases he' : k0 = k'
      · simp [setKey, lookupKey, he, he', h]
      · simpa [setKey, lookupKey, he, he'] using ih

theorem setKey_of_lookupKey_eq (m : List (String × String)) (k v : String)
    (h : lookupKey m k = some v) : setKey m k v = m := by
  induction m with
  | nil => simp [lookupKey] at h
  | cons e rest ih =>
    obtain ⟨k0, v0⟩ := e
    by_cases he : k0 = k
    · simp only [lookupKey, he, beq_self_eq_true, if_true, Option.some.injEq] at h
      simp [setKey, he, h]
    · simp only [lookupKey, he, beq_iff_eq, if_false] at h
      simp [setKey, he, ih h]

theorem mem_setKey (m : List (String × String)) (k v : String) (e : String × String)
    (he : e ∈ setKey m k v) : e ∈ m ∨ e = (k, v) := by
  induction m with
  | nil =>
    simp only [setKey, List.mem_singleton] at he
    exact Or.inr he
  | cons e' rest ih =>
    by_cases h : e'.1 = k
    · simp only [setKey, h, beq_self_eq_true, if_true, List.mem_cons] at he
      rcases he with he | he
      · exact Or.inr he
      · exact Or.inl (List.mem_cons_of_mem _ he)
    · simp only [setKey, h, beq_iff_eq, if_false, List.mem_cons] at he
      rcases he with he | he
      · exact Or.inl (by simp [he])
      · rcases ih he with h' | h'
        · exact Or.inl (List.mem_cons_of_mem _ h')
        · exact Or.inr h'

theorem depMap_setDepMap_self (pj : PackageJson) (dt : DepType) (m : List (String × String)) :
    (pj.setDepMap dt m).depMap dt = some m := by
  cases dt <;> rfl

theorem depMap_setDepMap_ne (pj : PackageJson) (dt dt' : DepType) (m : List (String × String))
    (h : dt' ≠ dt) : (pj.setDepMap dt m).depMap dt' = pj.depMap dt' := by
  cases dt <;> cases dt' <;> first
    | rfl
    | exact absurd rfl h

theorem name_setDepMap (pj : PackageJson) (dt : DepType) (m : List (String × String)) :
    (pj.setDepMap dt m).name = pj.name := by
  cases dt <;> rfl

theorem setDepMap_of_depMap_eq (pj : PackageJson) (dt : DepType) (m : List (String × String))
    (h : pj.depMap dt = some m) : pj.setDepMap dt m = pj := by
  cases pj
  cases dt <;> simp_all [PackageJson.setDepMap, PackageJson.depMap]

/-- The predicate used by both `lookupPackage` and `setFirstMatching`. -/
theorem find?_setFirstMatching_self (l : List Package) (n : Option String) (dt : DepType)
    (m : List (String × String)) (P : Package)
    (h : l.find? (fun p => p.packageJson.name == n) = some P) :
    (setFirstMatching n dt m l).find? (fun p => p.packageJson.name == n)
      = some { P with packageJson := P.packageJson.setDepMap dt m } := by
  induction l with
  | nil => simp [List.find?] at h
  | cons p rest ih =>
    by_cases hp : p.packageJson.name = n
    · rw [List.find?_cons_of_pos _ (by simpa using hp)] at h
      cases h
      simp only [setFirstMatching, hp, beq_self_eq_true, if_true]
      exact List.find?_cons_of_pos _ (by simp [name_setDepMap, hp])
    · rw [List.find?_cons_of_neg _ (by simpa using hp)] at h
      simp only [setFirstMatching, hp, beq_iff_eq, if_false]
      rw [List.find?_cons_of_neg _ (by simpa using hp)]
      exact ih h

theorem find?_setFirstMatching_ne (l : List Package) (n n' : Option String) (dt : DepType)
    (m : List (String × String)) (h : n' ≠ n) :
    (setFirstMatching n dt m l).find? (fun p => p.packageJson.name == n')
      = l.find? (fun p => p.packageJson.name == n') := by
  induction l with
  | nil => rfl
  | cons p rest ih =>
    by_cases hp : p.packageJson.name = n
    · simp only [setFirstMatching, hp, beq_self_eq_true, if_true]
      rw [List.find?_cons_of_neg _ (by simp [name_setDepMap, hp, Ne.symm h]),
        List.find?_cons_of_neg _ (by simp [hp, Ne.symm h])]
    · simp only [setFirstMatching, hp, beq_iff_eq, if_false]
      by_cases hp' : p.packageJson.name = n'
      · rw [List.find?_cons_of_pos _ (by simpa using hp'),
          List.find?_cons_of_pos _ (by simpa using hp')]
      · rw [List.find?_cons_of_neg _ (by simpa using hp'),
          List.find?_cons_of_neg _ (by simpa using hp')]
        exact ih

theorem setFirstMatching_of_find?_none (l : List Package) (n : Option String) (dt : DepType)
    (m : List (String × String))
    (h : l.find? (fun p => p.packageJson.name == n) = none) :
    setFirstMatching n dt m l = l := by
  induction l with
  | nil => rfl
  | cons p rest ih =>
    rcases List.find?_eq_none.mp h with hall
    have hp : ¬ p.packageJson.name = n := by
      have := hall p (List.mem_cons_self _ _)
      simpa using this
    have hrest : rest.find? (fun p => p.packageJson.name == n) = none := by
      refine List.find?_eq_none.mpr ?_
      intro q hq
      exact hall q (List.mem_cons_of_mem _ hq)
    simp [setFirstMatching, hp, ih hrest]

theorem lookupPackage_updateLastPackage_self (pkgs : List Package) (n : Option String)
    (dt : DepType) (m : List (String × String)) (P : Package)
    (h : lookupPackage pkgs n = some P) :
    lookupPackage (updateLastPackage pkgs n dt m) n
      = some { P with packageJson := P.packageJson.setDepMap dt m } := by
  unfold lookupPackage updateLastPackage
  rw [List.reverse_reverse]
  exact find?_setFirstMatching_self _ _ _ _ _ h

theorem lookupPackage_updateLastPackage_ne (pkgs : List Package) (n n' : Option String)
    (dt : DepType) (m : List (String × String)) (h : n' ≠ n) :
    lookupPackage (updateLastPackage pkgs n dt m) n' = lookupPackage pkgs n' := by
  unfold lookupPackage updateLastPackage
  rw [List.reverse_reverse]
  exact find?_setFirstMatching_ne _ _ _ _ _ h

theorem lookupPackage_updateLastPackage_none (pkgs : List Package) (n n' : Option String)
    (dt : DepType) (m : List (String × String)) (h : lookupPackage pkgs n' = none) :
    lookupPackage (updateLastPackage pkgs n dt m) n' = none := by
  by_cases hn : n' = n
  · subst hn
    unfold lookupPackage updateLastPackage
    rw [List.reverse_reverse, setFirstMatching_of_find?_none _ _ _ _ h]
    exact h
  · rw [lookupPackage_updateLastPackage_ne _ _ _ _ _ hn]
    exact h

/-- A single range-rewrite step of the propagator (setting key `k'` of some
package's map `dt₀` to `v'`) preserves `HasRange` facts whose key differs or
whose value is the one being written. -/
theorem HasRange_step (pkgs : List Package) (n₀ : Option String) (dt₀ : DepType)
    (m₀ : List (String × String)) (P₀ : Package) (k' v' : String)
    (hP : lookupPackage pkgs n₀ = some P₀)
    (hm : P₀.packageJson.depMap dt₀ = some m₀)
    {n : Option String} {dt : DepType} {k v : String}
    (hkv : k' ≠ k ∨ v' = v)
    (h : HasRange pkgs n dt k v) :
    HasRange (updateLastPackage pkgs n₀ dt₀ (setKey m₀ k' v')) n dt k v := by
  obtain ⟨P, hlP, hlk⟩ := h
  by_cases hn : n = n₀
  · subst hn
    have hPP : P = P₀ := by
      rw [hlP] at hP
      exact Option.some.inj hP
    refine ⟨{ P with packageJson := P.packageJson.setDepMap dt₀ (setKey m₀ k' v') },
      lookupPackage_updateLastPackage_self _ _ _ _ _ hlP, ?_⟩
    by_cases hdt : dt = dt₀
    · subst hdt
      have hm' : P.packageJson.depMap dt = some m₀ := hPP ▸ hm
      rw [hm'] at hlk
      show lookupKey (((P.packageJson.setDepMap dt (setKey m₀ k' v')).depMap dt).getD []) k
          = some v
      rw [depMap_setDepMap_self]
      simp only [Option.getD_some] at hlk ⊢
      rcases hkv with hk | hv
      · rw [lookupKey_setKey_ne _ _ _ _ (Ne.symm hk)]
        exact hlk
      · subst hv
        by_cases hkk : k' = k
        · subst hkk
          rw [lookupKey_setKey_self]
        · rw [lookupKey_setKey_ne _ _ _ _ (Ne.symm hkk)]
          exact hlk
    · show lookupKey (((P.packageJson.setDepMap dt₀ (setKey m₀ k' v')).depMap dt).getD []) k
          = some v
      rw [depMap_setDepMap_ne _ _ _ _ hdt]
      exact hlk
  · refine ⟨P, ?_, hlk⟩
    rw [lookupPackage_updateLastPackage_ne _ _ _ _ _ hn]
    exact hlP

/-- The per-release dependent loop never removes accumulated names. -/
theorem updateDependentsGo_acc_mono (release : Release) (releases : List Release)
    (deps : List Dependency) (pkgs : List Package) (acc : List (Option String))
    (pkgs' : List Package) (acc' : List (Option String))
    (h : updateDependentsGo release releases deps pkgs acc = Except.ok (pkgs', acc'))
    (x : Option String) (hx : x ∈ acc) : x ∈ acc' := by
  induction deps generalizing pkgs acc with
  | nil =>
    simp only [updateDependentsGo, Except.ok.injEq, Prod.mk.injEq] at h
    exact h.2 ▸ hx
  | cons dep rest ih =>
    simp only [updateDependentsGo] at h
    split at h
    · split at h
      · exact ih _ _ h hx
      · split at h
        · cases h
        · split at h
          · cases h
          · exact ih _ _ h (List.mem_append_left _ hx)
    · exact ih _ _ h hx

/-- Processing further dependents of a release preserves `HasRange` facts for
any key other than the released name, and for the released name with the
target value, since every write of this loop sets key `release.name` to
`'^' + release.newVersion`. -/
theorem updateDependentsGo_preserves (release : Release) (releases : List Release)
    (deps : List Dependency) (pkgs : List Package) (acc : List (Option String))
    (pkgs' : List Package) (acc' : List (Option String))
    (h : updateDependentsGo release releases deps pkgs acc = Except.ok (pkgs', acc'))
    {n : Option String} {dt : DepType} {k v : String}
    (hkv : release.name ≠ k ∨ "^" ++ release.newVersion = v)
    (hr : HasRange pkgs n dt k v) : HasRange pkgs' n dt k v := by
  induction deps generalizing pkgs acc with
  | nil =>
    simp only [updateDependentsGo, Except.ok.injEq, Prod.mk.injEq] at h
    exact h.1 ▸ hr
  | cons dep rest ih =>
    simp only [updateDependentsGo] at h
    split at h
    · split at h
      · exact ih _ _ h hr
      · rcases hP : lookupPackage pkgs dep.name with _ | dependentPkg <;> simp only [hP] at h
        · cases h
        · rcases hD : dependentPkg.packageJson.depMap dep.depType with _ | dependentDeps <;>
            simp only [hD] at h
          · cases h
          · exact ih _ _ h (HasRange_step _ _ _ _ _ _ _ hP hD hkv hr)
    · exact ih _ _ h hr

/-- If the dependent loop for a release completes and contains an edge whose
dependent is not released with a version change and whose range is a caret
range, then afterwards that dependent's map holds the target range and the
dependent was recorded as updated. -/
theorem updateDependentsGo_establishes (release : Release) (releases : List Release)
    (deps : List Dependency) (e : Dependency)
    (hskip : ∀ r, lookupRelease releases e.name = some r → r.oldVersion = r.newVersion)
    (hcaret : strStartsWith e.versionRange "^" = true) :
    ∀ (pkgs : List Package) (acc : List (Option String))
      (pkgs' : List Package) (acc' : List (Option String)),
      updateDependentsGo release releases deps pkgs acc = Except.ok (pkgs', acc') →
      e ∈ deps →
      HasRange pkgs' e.name e.depType release.name ("^" ++ release.newVersion)
        ∧ e.name ∈ acc' := by
  induction deps with
  | nil => exact fun _ _ _ _ _ he => absurd he (List.not_mem_nil e)
  | cons dep rest ih =>
    intro pkgs acc pkgs' acc' h he
    rcases List.mem_cons.mp he with hde | he'
    · subst hde
      have hsu : (match lookupRelease releases e.name with
          | none => true
          | some er => er.oldVersion == er.newVersion) = true := by
        rcases hlr : lookupRelease releases e.name with _ | r
        · rfl
        · simpa using hskip r hlr
      simp only [updateDependentsGo, hsu, if_true, hcaret, Bool.not_true,
        Bool.false_eq_true, if_false] at h
      rcases hP : lookupPackage pkgs e.name with _ | dependentPkg <;> simp only [hP] at h
      · cases h
      · rcases hD : dependentPkg.packageJson.depMap e.depType with _ | dependentDeps <;>
          simp only [hD] at h
        · cases h
        · have hest : HasRange
              (updateLastPackage pkgs e.name e.depType
                (setKey dependentDeps release.name ("^" ++ release.newVersion)))
              e.name e.depType release.name ("^" ++ release.newVersion) := by
            refine ⟨{ dependentPkg with
              packageJson := dependentPkg.packageJson.setDepMap e.depType
                (setKey dependentDeps release.name ("^" ++ release.newVersion)) },
              lookupPackage_updateLastPackage_self _ _ _ _ _ hP, ?_⟩
            show lookupKey (((dependentPkg.packageJson.setDepMap e.depType
                (setKey dependentDeps release.name ("^" ++ release.newVersion))).depMap
                  e.depType).getD []) release.name
              = some ("^" ++ release.newVersion)
            rw [depMap_setDepMap_self]
            simp only [Option.getD_some]
            exact lookupKey_setKey_self _ _ _
          refine ⟨updateDependentsGo_preserves _ _ _ _ _ _ _ h (Or.inr rfl) hest, ?_⟩
          exact updateDependentsGo_acc_mono _ _ _ _ _ _ _ h _
            (List.mem_append_right _ (List.mem_singleton_self _))
    · simp only [updateDependentsGo] at h
      split at h
      · split at h
        · exact ih _ _ _ _ h he'
        · rcases hP : lookupPackage pkgs dep.name with _ | dependentPkg <;> simp only [hP] at h
          · cases h
          · rcases hD : dependentPkg.packageJson.depMap dep.depType with _ | dependentDeps <;>
              simp only [hD] at h
            · cases h
            · exact ih _ _ _ _ h he'
      · exact ih _ _ _ _ h he'

theorem mem_addUnique (l : List (Option String)) (x y : Option String) (hy : y ∈ l) :
    y ∈ addUnique l x := by
  unfold addUnique
  split
  · exact hy
  · exact List.mem_append_left _ hy

theorem mem_addUnique_self (l : List (Option String)) (x : Option String) :
    x ∈ addUnique l x := by
  unfold addUnique
  split
  · assumption
  · exact List.mem_append_right _ (List.mem_singleton_self _)

theorem addUnique_nodup (l : List (Option String)) (x : Option String) (h : l.Nodup) :
    (addUnique l x).Nodup := by
  unfold addUnique
  split
  · exact h
  · rename_i hx
    rw [List.nodup_append]
    exact ⟨h, List.nodup_singleton _, by simpa [List.disjoint_singleton] using hx⟩

theorem foldl_addUnique_mem_left (names : List (Option String)) :
    ∀ (upd : List (Option String)) (y : Option String), y ∈ upd →
      y ∈ names.foldl addUnique upd := by
  induction names with
  | nil => exact fun _ _ hy => hy
  | cons x rest ih =>
    intro upd y hy
    exact ih _ _ (mem_addUnique _ _ _ hy)

theorem foldl_addUnique_mem_right (names : List (Option String)) :
    ∀ (upd : List (Option String)) (y : Option String), y ∈ names →
      y ∈ names.foldl addUnique upd := by
  induction names with
  | nil => exact fun _ _ hy => absurd hy (List.not_mem_nil _)
  | cons x rest ih =>
    intro upd y hy
    rcases List.mem_cons.mp hy with rfl | hy'
    · exact foldl_addUnique_mem_left rest (addUnique upd y) y (mem_addUnique_self upd y)
    · exact ih _ _ hy'

theorem foldl_addUnique_nodup (names : List (Option String)) :
    ∀ (upd : List (Option String)), upd.Nodup → (names.foldl addUnique upd).Nodup := by
  induction names with
  | nil => exact fun _ h => h
  | cons x rest ih => exact fun upd h => ih _ (addUnique_nodup _ _ h)

/-- The release loop preserves `HasRange` facts whose key is not the name of
any release in the remaining plan, or whose value equals the target written
for that key. -/
theorem processReleases_preserves (graph : List (String × List Dependency))
    (releases : List Release) (rs : List Release)
    {n : Option String} {dt : DepType} {k v : String}
    (hks : ∀ r ∈ rs, r.name ≠ k ∨ "^" ++ r.newVersion = v) :
    ∀ (pkgs : List Package) (upd : List (Option String))
      (pkgs' : List Package) (upd' : List (Option String)),
      processReleases graph releases rs pkgs upd = Except.ok (pkgs', upd') →
      HasRange pkgs n dt k v → HasRange pkgs' n dt k v := by
  induction rs with
  | nil =>
    intro pkgs upd pkgs' upd' h hr
    simp only [processReleases, Except.ok.injEq, Prod.mk.injEq] at h
    exact h.1 ▸ hr
  | cons r rest ih =>
    intro pkgs upd pkgs' upd' h hr
    have hks' : ∀ r' ∈ rest, r'.name ≠ k ∨ "^" ++ r'.newVersion = v :=
      fun r' hr' => hks r' (List.mem_cons_of_mem _ hr')
    simp only [processReleases] at h
    split at h
    · rcases hg : graphGet graph r.name with _ | deps <;> simp only [hg] at h
      · exact ih hks' _ _ _ _ h hr
      · rcases hu : updateDependentsGo r releases deps pkgs [] with e | pr <;>
          simp only [hu] at h
        · cases h
        · obtain ⟨pkgs₁, names⟩ := pr
          exact ih hks' _ _ _ _ h
            (updateDependentsGo_preserves _ _ _ _ _ _ _ hu
              (hks r (List.mem_cons_self _ _)) hr)
    · exact ih hks' _ _ _ _ h hr

/-- The release loop never removes names from the updated set. -/
theorem processReleases_upd_mono (graph : List (String × List Dependency))
    (releases : List Release) (rs : List Release) :
    ∀ (pkgs : List Package) (upd : List (Option String))
      (pkgs' : List Package) (upd' : List (Option String)),
      processReleases graph releases rs pkgs upd = Except.ok (pkgs', upd') →
      ∀ x ∈ upd, x ∈ upd' := by
  induction rs with
  | nil =>
    intro pkgs upd pkgs' upd' h x hx
    simp only [processReleases, Except.ok.injEq, Prod.mk.injEq] at h
    exact h.2 ▸ hx
  | cons r rest ih =>
    intro pkgs upd pkgs' upd' h x hx
    simp only [processReleases] at h
    split at h
    · rcases hg : graphGet graph r.name with _ | deps <;> simp only [hg] at h
      · exact ih _ _ _ _ h x hx
      · rcases hu : updateDependentsGo r releases deps pkgs [] with e | pr <;>
          simp only [hu] at h
        · cases h
        · obtain ⟨pkgs₁, names⟩ := pr
          exact ih _ _ _ _ h x (foldl_addUnique_mem_left _ _ _ hx)
    · exact ih _ _ _ _ h x hx

/-- The updated set stays duplicate-free through the release loop. -/
theorem processReleases_upd_nodup (graph : List (String × List Dependency))
    (releases : List Release) (rs : List Release) :
    ∀ (pkgs : List Package) (upd : List (Option String))
      (pkgs' : List Package) (upd' : List (Option String)),
      processReleases graph releases rs pkgs upd = Except.ok (pkgs', upd') →
      upd.Nodup → upd'.Nodup := by
  induction rs with
  | nil =>
    intro pkgs upd pkgs' upd' h hn
    simp only [processReleases, Except.ok.injEq, Prod.mk.injEq] at h
    exact h.2 ▸ hn
  | cons r rest ih =>
    intro pkgs upd pkgs' upd' h hn
    simp only [processReleases] at h
    split at h
    · rcases hg : graphGet graph r.name with _ | deps <;> simp only [hg] at h
      · exact ih _ _ _ _ h hn
      · rcases hu : updateDependentsGo r releases deps pkgs [] with e | pr <;>
          simp only [hu] at h
        · cases h
        · obtain ⟨pkgs₁, names⟩ := pr
          exact ih _ _ _ _ h (foldl_addUnique_nodup _ _ hn)
    · exact ih _ _ _ _ h hn

/-- If the release loop completes, a minor release `D` in the plan with a
caret edge from an unreleased dependent leaves that dependent's range at
the target, and records the dependent in the updated set; all later releases
(which, in a well-formed plan, have other names) cannot undo it. -/
theorem processReleases_establishes (graph : List (String × List Dependency))
    (releases : List Release) (rs : List Release) (D : Release)
    (hminor : D.type = "minor") (deps : List Dependency)
    (hg : graphGet graph D.name = some deps) (e : Dependency) (he : e ∈ deps)
    (hskip : ∀ r, lookupRelease releases e.name = some r → r.oldVersion = r.newVersion)
    (hcaret : strStartsWith e.versionRange "^" = true)
    (hsame : ∀ r ∈ rs, r.name ≠ D.name ∨ r.newVersion = D.newVersion) :
    ∀ (pkgs : List Package) (upd : List (Option String))
      (pkgs' : List Package) (upd' : List (Option String)),
      processReleases graph releases rs pkgs upd = Except.ok (pkgs', upd') →
      D ∈ rs →
      HasRange pkgs' e.name e.depType D.name ("^" ++ D.newVersion) ∧ e.name ∈ upd' := by
  induction rs with
  | nil => exact fun _ _ _ _ _ hD => absurd hD (List.not_mem_nil D)
  | cons r rest ih =>
    intro pkgs upd pkgs' upd' h hD
    have hsame' : ∀ r' ∈ rest, r'.name ≠ D.name ∨ r'.newVersion = D.newVersion :=
      fun r' hr' => hsame r' (List.mem_cons_of_mem _ hr')
    rcases List.mem_cons.mp hD with hDr | hD'
    · subst hDr
      simp only [processReleases] at h
      split at h
      · rw [hg] at h
        rcases hu : updateDependentsGo D releases deps pkgs [] with er | pr <;>
          simp only [hu] at h
        · cases h
        · obtain ⟨pkgs₁, names⟩ := pr
          have hest := updateDependentsGo_establishes D releases deps e hskip hcaret
            pkgs [] pkgs₁ names hu he
          refine ⟨processReleases_preserves graph releases rest ?_ _ _ _ _ h hest.1, ?_⟩
          · intro r' hr'
            rcases hsame' r' hr' with hn | hv
            · exact Or.inl hn
            · exact Or.inr (by rw [hv])
          · exact processReleases_upd_mono graph releases rest _ _ _ _ h _
              (foldl_addUnique_mem_right _ _ _ hest.2)
      · rename_i hc
        exact absurd (by simp [hminor]) hc
    · simp only [processReleases] at h
      split at h
      · rcases hg2 : graphGet graph r.name with _ | deps₂ <;> simp only [hg2] at h
        · exact ih hsame' _ _ _ _ h hD'
        · rcases hu : updateDependentsGo r releases deps₂ pkgs [] with er | pr <;>
            simp only [hu] at h
          · cases h
          · obtain ⟨pkgs₁, names⟩ := pr
            exact ih hsame' _ _ _ _ h hD'
      · exact ih hsame' _ _ _ _ h hD'

/-! ### The dependents graph contains every declared dependency edge -/

theorem graphGet_graphAdd_self (g : List (String × List Dependency)) (k : String)
    (d : Dependency) :
    graphGet (graphAdd g k d) k = some (((graphGet g k).getD []) ++ [d]) := by
  induction g with
  | nil => simp [graphAdd, graphGet]
  | cons p rest ih =>
    obtain ⟨k', ds⟩ := p
    by_cases hk : k' = k
    · simp [graphAdd, graphGet, hk]
    · simpa [graphAdd, graphGet, hk] using ih

theorem graphGet_graphAdd_ne (g : List (String × List Dependency)) (k k' : String)
    (d : Dependency) (h : k' ≠ k) :
    graphGet (graphAdd g k d) k' = graphGet g k' := by
  induction g with
  | nil => simp [graphAdd, graphGet, Ne.symm h]
  | cons p rest ih =>
    obtain ⟨k0, ds⟩ := p
    by_cases hk : k0 = k
    · simp [graphAdd, graphGet, hk, h, Ne.symm h]
    · by_cases hk' : k0 = k'
      · simp [graphAdd, graphGet, hk, hk', h]
      · simpa [graphAdd, graphGet, hk, hk'] using ih

theorem mem_graphGet_graphAdd (g : List (String × List Dependency)) (k k' : String)
    (d e : Dependency) (he : e ∈ (graphGet g k').getD []) :
    e ∈ (graphGet (graphAdd g k d) k').getD [] := by
  by_cases hk : k' = k
  · subst hk
    rw [graphGet_graphAdd_self]
    exact List.mem_append_left _ he
  · rw [graphGet_graphAdd_ne _ _ _ _ hk]
    exact he

theorem mem_graphGet_graphAdd_self (g : List (String × List Dependency)) (k : String)
    (d : Dependency) : d ∈ (graphGet (graphAdd g k d) k).getD [] := by
  rw [graphGet_graphAdd_self]
  exact List.mem_append_right _ (List.mem_singleton_self _)

/-- Generic preservation of a property along a left fold. -/
theorem foldl_pres {α β : Type} (step : β → α → β) (Q : β → Prop)
    (hstep : ∀ b a, Q b → Q (step b a)) :
    ∀ (l : List α) (b : β), Q b → Q (l.foldl step b) := by
  intro l
  induction l with
  | nil => exact fun b hb => hb
  | cons a rest ih => exact fun b hb => ih _ (hstep b a hb)

/-- Folding the entries of one dependency map into the graph records the edge
for every entry. -/
theorem foldl_graphAdd_establish (pkgname : Option String) (dt : DepType)
    (entries : List (String × String)) (k r₀ : String)
    (hmem : (k, r₀) ∈ entries) :
    ∀ g, ({ name := pkgname, versionRange := r₀, depType := dt } : Dependency) ∈
      (graphGet (entries.foldl
        (fun g e => graphAdd g e.1
          { name := pkgname, versionRange := e.2, depType := dt }) g) k).getD [] := by
  induction entries with
  | nil => exact absurd hmem (List.not_mem_nil _)
  | cons ent rest ih =>
    intro g
    rcases List.mem_cons.mp hmem with hl | hr
    · rw [List.foldl_cons]
      apply foldl_pres _ (fun g => _ ∈ (graphGet g k).getD [])
        (fun b a hb => mem_graphGet_graphAdd _ _ _ _ _ hb)
      rw [← hl]
      exact mem_graphGet_graphAdd_self _ _ _
    · exact ih hr _

theorem foldl_graphAdd_mono (pkgname : Option String) (dt : DepType)
    (entries : List (String × String)) (k : String) (e : Dependency) (g)
    (hb : e ∈ (graphGet g k).getD []) :
    e ∈ (graphGet (entries.foldl
      (fun g ent => graphAdd g ent.1
        { name := pkgname, versionRange := ent.2, depType := dt }) g) k).getD [] :=
  foldl_pres _ (fun g => e ∈ (graphGet g k).getD [])
    (fun b a hb => mem_graphGet_graphAdd _ _ _ _ _ hb) entries g hb

/-- The full dependents graph contains an edge for every declared dependency
entry of every package. -/
theorem getDependentsGraphList_edge (packages : List Package) (P : Package)
    (hP : P ∈ packages) (dt : DepType) (k r₀ : String)
    (hdecl : (k, r₀) ∈ (P.packageJson.depMap dt).getD []) :
    ({ name := P.packageJson.name, versionRange := r₀, depType := dt } : Dependency) ∈
      (graphGet (getDependentsGraphList packages) k).getD [] := by
  obtain ⟨l₁, l₂, rfl⟩ := List.append_of_mem hP
  unfold getDependentsGraphList
  rw [List.foldl_append, List.foldl_cons]
  apply foldl_pres _
    (fun g => ({ name := P.packageJson.name, versionRange := r₀, depType := dt } :
        Dependency) ∈ (graphGet g k).getD [])
    (fun b a hb => by
      simp only [dependencyTypes, List.foldl_cons, List.foldl_nil]
      exact foldl_graphAdd_mono _ _ _ _ _ _
        (foldl_graphAdd_mono _ _ _ _ _ _ (foldl_graphAdd_mono _ _ _ _ _ _ hb)))
  simp only [dependencyTypes, List.foldl_cons, List.foldl_nil]
  cases dt with
  | dependencies =>
    exact foldl_graphAdd_mono _ _ _ _ _ _
      (foldl_graphAdd_mono _ _ _ _ _ _ (foldl_graphAdd_establish _ _ _ _ _ hdecl _))
  | devDependencies =>
    exact foldl_graphAdd_mono _ _ _ _ _ _
      (foldl_graphAdd_establish _ _ _ _ _ hdecl _)
  | peerDependencies =>
    exact foldl_graphAdd_establish _ _ _ _ _ hdecl _

/-- Destructuring a successful `updateMinVersions` run into its release-loop
equation. -/
theorem updateMinVersions_ok_destruct (packages : List Package) (plan : List Release)
    (res : RunResult) (hrun : updateMinVersions packages plan = Except.ok res) :
    processReleases (getDependentsGraphList packages) plan plan packages []
        = Except.ok (res.pkgs, res.written)
      ∧ res.committed = !res.written.isEmpty := by
  simp only [updateMinVersions, getDependentsGraph] at hrun
  rcases hpr : processReleases (getDependentsGraphList packages) plan plan packages []
    with er | pr <;> simp only [hpr] at hrun
  · cases hrun
  · obtain ⟨pkgs', upd⟩ := pr
    cases hrun
    exact ⟨rfl, rfl⟩

/-- In a plan with pairwise-distinct release names, any release sharing `D`'s
name is `D` itself. -/
theorem hsame_of_nodup (plan : List Release) (D : Release) (hD : D ∈ plan)
    (hnodup : (plan.map Release.name).Nodup) :
    ∀ r ∈ plan, r.name ≠ D.name ∨ r.newVersion = D.newVersion := by
  intro r hr
  by_cases hn : r.name = D.name
  · right
    have : r = D := List.inj_on_of_nodup_map hnodup hr hD hn
    rw [this]
  · exact Or.inl hn

/-- Claim C1: if `D` is a minor release of the plan, `P` is a workspace
package declaring a caret range on `D.name` in dependency map `dt`, `P` is
not itself released with a version change (absent from the release map, or
present with `oldVersion = newVersion`), the plan names releases uniquely,
and the propagator run succeeds, then afterwards `P`'s declared range for
`D.name` in map `dt` is `'^' + D.newVersion`. -/
theorem claim_C1_minor_caret_propagation
    (packages : List Package) (plan : List Release) (D : Release) (P : Package)
    (dt : DepType) (range : String) (res : RunResult)
    (hD : D ∈ plan) (hminor : D.type = "minor")
    (hP : P ∈ packages)
    (hdecl : (D.name, range) ∈ (P.packageJson.depMap dt).getD [])
    (hcaret : strStartsWith range "^" = true)
    (hskip : ∀ r, lookupRelease plan P.packageJson.name = some r →
      r.oldVersion = r.newVersion)
    (hnodup : (plan.map Release.name).Nodup)
    (hrun : updateMinVersions packages plan = Except.ok res) :
    HasRange res.pkgs P.packageJson.name dt D.name ("^" ++ D.newVersion) := by
  obtain ⟨hpr, _⟩ := updateMinVersions_ok_destruct packages plan res hrun
  have hedge := getDependentsGraphList_edge packages P hP dt D.name range hdecl
  rcases hgr : graphGet (getDependentsGraphList packages) D.name with _ | deps <;>
    rw [hgr] at hedge
  · simp at hedge
  · simp only [Option.getD_some] at hedge
    exact (processReleases_establishes (getDependentsGraphList packages) plan plan D
      hminor deps hgr _ hedge hskip hcaret (hsame_of_nodup plan D hD hnodup)
      packages [] res.pkgs res.written hpr hD).1

/-- Witness for C1: a single minor release of `a` and one unreleased
dependent `y` with a caret range on `a`. -/
theorem claim_C1_minor_caret_propagation_witness :
    HasRange
      (RunResult.mk
        [Package.mk "d" ⟨some "y", "1.0.0", some [("a", "^1.1.0")], none, none⟩]
        [some "y"] true).pkgs
      (some "y") DepType.dependencies "a" ("^" ++ "1.1.0") :=
  claim_C1_minor_caret_propagation
    [Package.mk "d" ⟨some "y", "1.0.0", some [("a", "^1.0.0")], none, none⟩]
    [Release.mk "a" "1.0.0" "1.1.0" "minor"]
    (Release.mk "a" "1.0.0" "1.1.0" "minor")
    (Package.mk "d" ⟨some "y", "1.0.0", some [("a", "^1.0.0")], none, none⟩)
    DepType.dependencies "^1.0.0"
    (RunResult.mk
      [Package.mk "d" ⟨some "y", "1.0.0", some [("a", "^1.1.0")], none, none⟩]
      [some "y"] true)
    (by decide) rfl (by decide) (by decide) (by decide)
    (by
      intro r hr
      have hnone : lookupRelease [Release.mk "a" "1.0.0" "1.1.0" "minor"] (some "y")
          = none := by decide
      rw [hnone] at hr
      cases hr)
    (by decide) rfl

/-- An element of a duplicate-free list has count one. -/
theorem count_one_of_nodup_mem {α : Type} [BEq α] [LawfulBEq α] {l : List α} {a : α}
    (hnd : l.Nodup) (ha : a ∈ l) : l.count a = 1 := by
  induction l with
  | nil => cases ha
  | cons x xs ih =>
    rcases List.mem_cons.mp ha with rfl | ha'
    · have hnotin : a ∉ xs := (List.nodup_cons.mp hnd).1
      rw [List.count_cons_self, List.count_eq_zero.mpr hnotin]
    · have hne : a ≠ x := by
        rintro rfl
        exact (List.nodup_cons.mp hnd).1 ha'
      rw [List.count_cons_of_ne hne]
      exact ih (List.nodup_cons.mp hnd).2 ha'

/-- Claim C4: with several minor releases in one plan and one unreleased
package `C` declaring caret ranges on two of them, the run applies both range
updates to `C` and records `C` in the written set exactly once (the set of
updated packages is deduplicated). -/
theorem claim_C4_multiple_minors_single_write
    (packages : List Package) (plan : List Release) (A B : Release) (C : Package)
    (dtA dtB : DepType) (rangeA rangeB : String) (res : RunResult)
    (hA : A ∈ plan) (hAminor : A.type = "minor")
    (hB : B ∈ plan) (hBminor : B.type = "minor")
    (hC : C ∈ packages)
    (hdeclA : (A.name, rangeA) ∈ (C.packageJson.depMap dtA).getD [])
    (hdeclB : (B.name, rangeB) ∈ (C.packageJson.depMap dtB).getD [])
    (hcaretA : strStartsWith rangeA "^" = true)
    (hcaretB : strStartsWith rangeB "^" = true)
    (hskip : ∀ r, lookupRelease plan C.packageJson.name = some r →
      r.oldVersion = r.newVersion)
    (hnodup : (plan.map Release.name).Nodup)
    (hrun : updateMinVersions packages plan = Except.ok res) :
    HasRange res.pkgs C.packageJson.name dtA A.name ("^" ++ A.newVersion)
      ∧ HasRange res.pkgs C.packageJson.name dtB B.name ("^" ++ B.newVersion)
      ∧ res.written.count C.packageJson.name = 1 := by
  obtain ⟨hpr, _⟩ := updateMinVersions_ok_destruct packages plan res hrun
  have hedgeA := getDependentsGraphList_edge packages C hC dtA A.name rangeA hdeclA
  have hedgeB := getDependentsGraphList_edge packages C hC dtB B.name rangeB hdeclB
  rcases hgrA : graphGet (getDependentsGraphList packages) A.name with _ | depsA <;>
    rw [hgrA] at hedgeA
  · simp at hedgeA
  rcases hgrB : graphGet (getDependentsGraphList packages) B.name with _ | depsB <;>
    rw [hgrB] at hedgeB
  · simp at hedgeB
  simp only [Option.getD_some] at hedgeA hedgeB
  have estA := processReleases_establishes (getDependentsGraphList packages) plan plan A
    hAminor depsA hgrA _ hedgeA hskip hcaretA (hsame_of_nodup plan A hA hnodup)
    packages [] res.pkgs res.written hpr hA
  have estB := processReleases_establishes (getDependentsGraphList packages) plan plan B
    hBminor depsB hgrB _ hedgeB hskip hcaretB (hsame_of_nodup plan B hB hnodup)
    packages [] res.pkgs res.written hpr hB
  have hnd : res.written.Nodup :=
    processReleases_upd_nodup (getDependentsGraphList packages) plan plan
      packages [] res.pkgs res.written hpr List.nodup_nil
  exact ⟨estA.1, estB.1, count_one_of_nodup_mem hnd estA.2⟩

/-- Witness for C4: two simultaneous minor releases with one shared
unreleased dependent. -/
theorem claim_C4_multiple_minors_single_write_witness :
    HasRange
      (RunResult.mk
        [Package.mk "d"
          ⟨some "c", "1.0.0", some [("a", "^1.1.0"), ("b", "^2.1.0")], none, none⟩]
        [some "c"] true).pkgs
      (some "c") DepType.dependencies "a" ("^" ++ "1.1.0")
    ∧ HasRange
      (RunResult.mk
        [Package.mk "d"
          ⟨some "c", "1.0.0", some [("a", "^1.1.0"), ("b", "^2.1.0")], none, none⟩]
        [some "c"] true).pkgs
      (some "c") DepType.dependencies "b" ("^" ++ "2.1.0")
    ∧ (RunResult.mk
        [Package.mk "d"
          ⟨some "c", "1.0.0", some [("a", "^1.1.0"), ("b", "^2.1.0")], none, none⟩]
        [some "c"] true).written.count (some "c") = 1 :=
  claim_C4_multiple_minors_single_write
    [Package.mk "d"
      ⟨some "c", "1.0.0", some [("a", "^1.0.0"), ("b", "^2.0.0")], none, none⟩]
    [Release.mk "a" "1.0.0" "1.1.0" "minor", Release.mk "b" "2.0.0" "2.1.0" "minor"]
    (Release.mk "a" "1.0.0" "1.1.0" "minor") (Release.mk "b" "2.0.0" "2.1.0" "minor")
    (Package.mk "d"
      ⟨some "c", "1.0.0", some [("a", "^1.0.0"), ("b", "^2.0.0")], none, none⟩)
    DepType.dependencies DepType.dependencies "^1.0.0" "^2.0.0"
    (RunResult.mk
      [Package.mk "d"
        ⟨some "c", "1.0.0", some [("a", "^1.1.0"), ("b", "^2.1.0")], none, none⟩]
      [some "c"] true)
    (by decide) rfl (by decide) rfl (by decide) (by decide) (by decide)
    (by decide) (by decide)
    (by
      intro r hr
      have hnone : lookupRelease
          [Release.mk "a" "1.0.0" "1.1.0" "minor", Release.mk "b" "2.0.0" "2.1.0" "minor"]
          (some "c") = none := by decide
      rw [hnone] at hr
      cases hr)
    (by decide) rfl

/-! ### Failure on an unresolvable dependent (claim C5) -/

/-- A successful dependent loop cannot create a package under a name that had
none. -/
theorem updateDependentsGo_lookup_none (release : Release) (releases : List Release)
    (deps : List Dependency) {nn : Option String} :
    ∀ (pkgs : List Package) (acc : List (Option String))
      (pkgs' : List Package) (acc' : List (Option String)),
      updateDependentsGo release releases deps pkgs acc = Except.ok (pkgs', acc') →
      lookupPackage pkgs nn = none → lookupPackage pkgs' nn = none := by
  induction deps with
  | nil =>
    intro pkgs acc pkgs' acc' h hnone
    simp only [updateDependentsGo, Except.ok.injEq, Prod.mk.injEq] at h
    exact h.1 ▸ hnone
  | cons dep rest ih =>
    intro pkgs acc pkgs' acc' h hnone
    simp only [updateDependentsGo] at h
    split at h
    · split at h
      · exact ih _ _ _ _ h hnone
      · rcases hP : lookupPackage pkgs dep.name with _ | dependentPkg <;> simp only [hP] at h
        · cases h
        · rcases hD : dependentPkg.packageJson.depMap dep.depType with _ | dependentDeps <;>
            simp only [hD] at h
          · cases h
          · exact ih _ _ _ _ h (lookupPackage_updateLastPackage_none _ _ _ _ _ hnone)
    · exact ih _ _ _ _ h hnone

/-- If the dependent loop reaches an edge whose dependent passes the
release-skip and caret checks but cannot be resolved in the package set, the
loop throws. -/
theorem updateDependentsGo_missing (release : Release) (releases : List Release)
    (deps : List Dependency) (e : Dependency)
    (hskip : ∀ r, lookupRelease releases e.name = some r → r.oldVersion = r.newVersion)
    (hcaret : strStartsWith e.versionRange "^" = true) :
    ∀ (pkgs : List Package) (acc : List (Option String)),
      e ∈ deps → lookupPackage pkgs e.name = none →
      ∃ err, updateDependentsGo release releases deps pkgs acc = Except.error err := by
  induction deps with
  | nil => exact fun _ _ he _ => absurd he (List.not_mem_nil e)
  | cons dep rest ih =>
    intro pkgs acc he hnone
    rcases List.mem_cons.mp he with hde | he'
    · subst hde
      have hsu : (match lookupRelease releases e.name with
          | none => true
          | some er => er.oldVersion == er.newVersion) = true := by
        rcases hlr : lookupRelease releases e.name with _ | r
        · rfl
        · simpa using hskip r hlr
      simp only [updateDependentsGo, hsu, if_true, hcaret, Bool.not_true,
        Bool.false_eq_true, if_false, hnone]
      exact ⟨_, rfl⟩
    · simp only [updateDependentsGo]
      split
      · split
        · exact ih _ _ he' hnone
        · rcases hP : lookupPackage pkgs dep.name with _ | dependentPkg <;> simp only [hP]
          · exact ⟨_, rfl⟩
          · rcases hD : dependentPkg.packageJson.depMap dep.depType with _ | dependentDeps <;>
              simp only [hD]
            · exact ⟨_, rfl⟩
            · exact ih _ _ he' (lookupPackage_updateLastPackage_none _ _ _ _ _ hnone)
      · exact ih _ _ he' hnone

/-- The release loop throws when it reaches a minor release having an edge
whose dependent is unresolvable (and not otherwise skipped). -/
theorem processReleases_missing (graph : List (String × List Dependency))
    (releases rs : List Release) (D : Release) (hminor : D.type = "minor")
    (deps : List Dependency) (hg : graphGet graph D.name = some deps)
    (e : Dependency) (he : e ∈ deps)
    (hskip : ∀ r, lookupRelease releases e.name = some r → r.oldVersion = r.newVersion)
    (hcaret : strStartsWith e.versionRange "^" = true) :
    ∀ (pkgs : List Package) (upd : List (Option String)),
      D ∈ rs → lookupPackage pkgs e.name = none →
      ∃ err, processReleases graph releases rs pkgs upd = Except.error err := by
  induction rs with
  | nil => exact fun _ _ hD _ => absurd hD (List.not_mem_nil D)
  | cons r rest ih =>
    intro pkgs upd hD hnone
    rcases List.mem_cons.mp hD with hDr | hD'
    · subst hDr
      simp only [processReleases]
      split
      · rw [hg]
        obtain ⟨err₀, herr⟩ :=
          updateDependentsGo_missing D releases deps e hskip hcaret pkgs [] he hnone
        simp only [herr]
        exact ⟨err₀, rfl⟩
      · rename_i hc
        exact absurd (by simp [hminor]) hc
    · simp only [processReleases]
      split
      · rcases hg2 : graphGet graph r.name with _ | deps₂ <;> simp only [hg2]
        · exact ih _ _ hD' hnone
        · rcases hu : updateDependentsGo r releases deps₂ pkgs [] with er | pr <;>
            simp only [hu]
          · exact ⟨_, rfl⟩
          · obtain ⟨pkgs₁, names⟩ := pr
            exact ih _ _ hD' (updateDependentsGo_lookup_none _ _ _ _ _ _ _ hu hnone)
      · exact ih _ _ hD' hnone

/-- Claim C5: if the dependents graph names, under a minor release of the
plan, a dependent (passing the skip and caret checks) that cannot be resolved
in the package set, the propagation loop fails with an error.  By definition
of `updateMinVersions`, the manifest-write phase and the commit run only in
the `.ok` branch of this loop, so the failure precedes every write and the
on-disk package set is unchanged. -/
theorem claim_C5_missing_dependent_aborts (graph : List (String × List Dependency))
    (plan : List Release) (pkgs : List Package) (upd : List (Option String))
    (D : Release) (deps : List Dependency) (e : Dependency)
    (hD : D ∈ plan) (hminor : D.type = "minor")
    (hg : graphGet graph D.name = some deps) (he : e ∈ deps)
    (hskip : ∀ r, lookupRelease plan e.name = some r → r.oldVersion = r.newVersion)
    (hcaret : strStartsWith e.versionRange "^" = true)
    (hmissing : lookupPackage pkgs e.name = none) :
    ∃ err, processReleases graph plan plan pkgs upd = Except.error err :=
  processReleases_missing graph plan plan D hminor deps hg e he hskip hcaret
    pkgs upd hD hmissing

/-- Witness for C5: a graph entry naming a dependent `ghost` that is absent
from the (empty) package set. -/
theorem claim_C5_missing_dependent_aborts_witness :
    ∃ err, processReleases
      [("a", [Dependency.mk (some "ghost") "^1.0.0" DepType.dependencies])]
      [Release.mk "a" "1.0.0" "1.1.0" "minor"]
      [Release.mk "a" "1.0.0" "1.1.0" "minor"] [] []
      = Except.error err :=
  claim_C5_missing_dependent_aborts
    [("a", [Dependency.mk (some "ghost") "^1.0.0" DepType.dependencies])]
    [Release.mk "a" "1.0.0" "1.1.0" "minor"] [] []
    (Release.mk "a" "1.0.0" "1.1.0" "minor")
    [Dependency.mk (some "ghost") "^1.0.0" DepType.dependencies]
    (Dependency.mk (some "ghost") "^1.0.0" DepType.dependencies)
    (by decide) rfl (by decide) (by decide)
    (by
      intro r hr
      have hnone : lookupRelease [Release.mk "a" "1.0.0" "1.1.0" "minor"] (some "ghost")
          = none := by decide
      rw [hnone] at hr
      cases hr)
    (by decide) (by decide)

/-- Claim C3: a release plan containing only `patch` and `major` releases
makes the min-version propagator rewrite no dependency range, write no
manifest and make no commit: the run succeeds with the package set unchanged,
an empty write set and no commit. -/
theorem claim_C3_patch_major_noop (packages : List Package) (plan : List Release)
    (h : ∀ r ∈ plan, r.type = "patch" ∨ r.type = "major") :
    updateMinVersions packages plan
      = Except.ok { pkgs := packages, written := [], committed := false } := by
  have hskip : processReleases (getDependentsGraphList packages) plan plan packages []
      = Except.ok (packages, []) := by
    apply processReleases_skip_all
    intro r hr
    rcases h r hr with h' | h' <;> simp [h']
  simp [updateMinVersions, getDependentsGraph, hskip]

/-- Witness for C3 at a concrete package set and patch-only plan. -/
theorem claim_C3_patch_major_noop_witness :
    (∀ r ∈ [Release.mk "a" "1.0.0" "1.0.1" "patch"],
        r.type = "patch" ∨ r.type = "major")
    ∧ updateMinVersions
        [Package.mk "pkgs/a" ⟨some "a", "1.0.0", none, none, none⟩,
         Package.mk "pkgs/b" ⟨some "b", "1.0.0", some [("a", "^1.0.0")], none, none⟩]
        [Release.mk "a" "1.0.0" "1.0.1" "patch"]
      = Except.ok
          { pkgs := [Package.mk "pkgs/a" ⟨some "a", "1.0.0", none, none, none⟩,
                     Package.mk "pkgs/b" ⟨some "b", "1.0.0", some [("a", "^1.0.0")], none, none⟩],
            written := [], committed := false } :=
  ⟨by decide, claim_C3_patch_major_noop _ _ (by decide)⟩

/-- Claim C9 (amended): the dependents graph builder never fails; it is a
total pure function, even on package records lacking a name. -/
theorem claim_C9_never_fails (packages : List Package) :
    ∃ g, getDependentsGraph packages = Except.ok g :=
  ⟨getDependentsGraphList packages, rfl⟩

/-- Counterexample for claim C9 as stated: a package record with no `name`
does not make `getDependentsGraph` fail; the builder succeeds and records the
edge under the undefined dependent name. -/
theorem claim_C9_counterexample :
    (Package.mk "d1" ⟨none, "1.0.0", some [("x", "^1.0.0")], none, none⟩).packageJson.name
        = none
    ∧ getDependentsGraph
        [Package.mk "d1" ⟨none, "1.0.0", some [("x", "^1.0.0")], none, none⟩]
      = Except.ok
          [("x", [{ name := none, versionRange := "^1.0.0", depType := DepType.dependencies }])] :=
  ⟨rfl, rfl⟩

/-- Filtering twice with the same predicate is the same as filtering once. -/
theorem filter_idem (p : α → Bool) (l : List α) :
    (l.filter p).filter p = l.filter p := by
  induction l with
  | nil => rfl
  | cons x xs ih =>
    by_cases hx : p x = true
    · simp [List.filter_cons, hx, ih]
    · simp only [Bool.not_eq_true] at hx
      simp [List.filter_cons, hx, ih]

/-- Claim C10: `bundle-size-ratchet.json` files are discarded before package
resolution: both changed-package functions give the same result on a file
list and on that list with all such files removed, so a ratchet file can
never contribute a package or a recorded file to the output. -/
theorem claim_C10_ratchet_files_ignored (rel : String → String)
    (workspaces : List BoltPackage) (changedFiles : List String) :
    getChangedPackagesFromChangedFiles rel workspaces changedFiles
      = getChangedPackagesFromChangedFiles rel workspaces
          (changedFiles.filter (fun f => !(strEndsWith f "bundle-size-ratchet.json")))
    ∧ getChangedPackagesWithChangedFiles rel workspaces changedFiles
      = getChangedPackagesWithChangedFiles rel workspaces
          (changedFiles.filter (fun f => !(strEndsWith f "bundle-size-ratchet.json"))) := by
  constructor
  · simp only [getChangedPackagesFromChangedFiles, filter_idem]
  · simp only [getChangedPackagesWithChangedFiles, filter_idem]

/-- Claim C8: changed-file-to-package resolution matches on full path-segment
boundaries: a resolved package always has `dir ++ "/"` as a prefix of the
file path, and whenever some package's `dir ++ "/"` is a prefix of the file
path the file resolves to a package. -/
theorem claim_C8_segment_boundary_resolution (allPackages : List AFPackageR)
    (fileName : String) :
    (∀ p, fileNameToPackage allPackages fileName = some p →
        strStartsWith fileName (p.dir ++ "/") = true)
    ∧ ((∃ p ∈ allPackages, strStartsWith fileName (p.dir ++ "/") = true) →
        (fileNameToPackage allPackages fileName).isSome = true) := by
  constructor
  · intro p hp
    simp only [fileNameToPackage] at hp
    have h2 := List.find?_some hp
    simpa using h2
  · rintro ⟨p, hp, hpre⟩
    rcases hfind : fileNameToPackage allPackages fileName with _ | q
    · exfalso
      simp only [fileNameToPackage] at hfind
      have := List.find?_eq_none.mp hfind p hp
      simp [hpre] at this
    · rfl

/-- Witness for C8: `packages/foo/src/index.ts` resolves (to the package with
directory `packages/foo`), while `packages/foo-bar/src/index.ts` does not
resolve to that package. -/
theorem claim_C8_segment_boundary_resolution_witness :
    (fileNameToPackage [AFPackageR.mk "packages/foo" "foo" "packages/foo"]
        "packages/foo/src/index.ts").isSome = true
    ∧ fileNameToPackage [AFPackageR.mk "packages/foo" "foo" "packages/foo"]
        "packages/foo-bar/src/index.ts" = none :=
  ⟨(claim_C8_segment_boundary_resolution _ _).2
      ⟨AFPackageR.mk "packages/foo" "foo" "packages/foo", by decide, by decide⟩,
    by decide⟩

/-! ### The transitive dependency walker (claim C7) -/

theorem lookupAdj_mem_pair (g : List (String × List String)) (k : String)
    (deps : List String) (h : lookupAdj g k = some deps) :
    ∃ p, p ∈ g ∧ p.2 = deps := by
  unfold lookupAdj at h
  rcases hf : g.find? (fun p => p.1 == k) with _ | p <;> rw [hf] at h
  · cases h
  · exact ⟨p, List.mem_of_find?_eq_some hf, Option.some.inj h⟩

/-- In a closed graph, every dependency of a resolvable node is resolvable. -/
theorem closedB_spec (g : List (String × List String)) (hclosed : closedB g = true)
    (k : String) (deps : List String) (h : lookupAdj g k = some deps)
    (x : String) (hx : x ∈ deps) : (lookupAdj g x).isSome = true := by
  obtain ⟨p, hp, hpd⟩ := lookupAdj_mem_pair g k deps h
  have h1 := List.all_eq_true.mp hclosed p hp
  exact List.all_eq_true.mp h1 x (hpd ▸ hx)

theorem edgeB_iff_of_lookup (g : List (String × List String)) (c y : String)
    (deps : List String) (h : lookupAdj g c = some deps) :
    edgeB g c y = true ↔ y ∈ deps := by
  simp [edgeB, h]

/-- Correctness of the BFS loop for unbounded depths: with a closed graph and
the counter invariants of the source (`nodesUntilDepthIncrease ≥ 1`,
`currentDepth ≥ 0` except at the very first iteration), the loop returns a
duplicate-free visited set that is exactly closed under edges, contains the
root, and contains only nodes reachable from the root. -/
theorem bfsLoop_correct (g : List (String × List String)) (depth : Int) (root : String)
    (hclosed : closedB g = true) (hdepth : depth ≤ -2) :
    ∀ (visited queue : List String) (n d : Int),
      1 ≤ n → (0 ≤ d ∨ (d = -1 ∧ n = 1)) →
      (∀ x ∈ visited, Reaches g root x) →
      (∀ x ∈ queue, Reaches g root x) →
      (∀ x ∈ queue, (lookupAdj g x).isSome = true) →
      (∀ x ∈ visited, ∀ y, edgeB g x y = true → (y ∈ visited ∨ y ∈ queue)) →
      (root ∈ visited ∨ root ∈ queue) →
      visited.Nodup →
      ∃ res, bfsLoop g depth visited queue n d = Except.ok res
        ∧ res.Nodup
        ∧ (∀ x ∈ res, Reaches g root x)
        ∧ (∀ x ∈ res, ∀ y, edgeB g x y = true → y ∈ res)
        ∧ root ∈ res := by
  intro visited queue n d
  induction visited, queue, n, d using bfsLoop.induct g depth with
  | case1 visited n d =>
    intro hn hd hsv hsq hkq hclo hcov hnd
    refine ⟨visited, by simp only [bfsLoop], hnd, hsv, ?_, ?_⟩
    · intro x hx y hy
      rcases hclo x hx y hy with h | h
      · exact h
      · exact absurd h (List.not_mem_nil y)
    · rcases hcov with h | h
      · exact h
      · exact absurd h (List.not_mem_nil root)
  | case2 visited n d c rest =>
    rename_i n1 nd hbreak
    intro hn hd hsv hsq hkq hclo hcov hnd
    exfalso
    unfold_let nd n1 at hbreak
    by_cases hn1 : n - 1 = 0
    · rw [dif_pos hn1] at hbreak
      dsimp only at hbreak
      rcases hd with hd | ⟨hd1, hd2⟩ <;> omega
    · rw [dif_neg hn1] at hbreak
      dsimp only at hbreak
      rcases hd with hd | ⟨hd1, hd2⟩ <;> omega
  | case3 visited n d c rest =>
    rename_i n1 nd hbreak hv ih
    intro hn hd hsv hsq hkq hclo hcov hnd
    unfold_let nd n1 at hbreak ih
    have hsq' : ∀ x ∈ rest, Reaches g root x :=
      fun x hx => hsq x (List.mem_cons_of_mem _ hx)
    have hkq' : ∀ x ∈ rest, (lookupAdj g x).isSome = true :=
      fun x hx => hkq x (List.mem_cons_of_mem _ hx)
    have hclo' : ∀ x ∈ visited, ∀ y, edgeB g x y = true → (y ∈ visited ∨ y ∈ rest) := by
      intro x hx y hy
      rcases hclo x hx y hy with h | h
      · exact Or.inl h
      · rcases List.mem_cons.mp h with rfl | h'
        · exact Or.inl hv
        · exact Or.inr h'
    have hcov' : root ∈ visited ∨ root ∈ rest := by
      rcases hcov with h | h
      · exact Or.inl h
      · rcases List.mem_cons.mp h with rfl | h'
        · exact Or.inl hv
        · exact Or.inr h'
    by_cases hn1 : n - 1 = 0
    · rw [dif_pos hn1] at ih hbreak
      dsimp only at ih hbreak
      have hlen : (1 : Int) ≤ ((c :: rest).length : Int) := by
        simp only [List.length_cons]
        omega
      have hdpos : (0 : Int) ≤ d + 1 := by
        rcases hd with hd | ⟨hd1, hd2⟩ <;> omega
      obtain ⟨res, heq, h1, h2, h3, h4⟩ := ih hlen (Or.inl hdpos)
        hsv hsq' hkq' hclo' hcov' hnd
      refine ⟨res, ?_, h1, h2, h3, h4⟩
      rw [bfsLoop.eq_def]
      simp only [hn1, if_true, List.length_cons]
      rw [if_neg hbreak, dif_pos hv]
      exact heq
    · rw [dif_neg hn1] at ih hbreak
      dsimp only at ih hbreak
      have hn1' : (1 : Int) ≤ n - 1 := by omega
      have hdpos : (0 : Int) ≤ d := by
        rcases hd with hd | ⟨hd1, hd2⟩ <;> omega
      obtain ⟨res, heq, h1, h2, h3, h4⟩ := ih hn1' (Or.inl hdpos)
        hsv hsq' hkq' hclo' hcov' hnd
      refine ⟨res, ?_, h1, h2, h3, h4⟩
      rw [bfsLoop.eq_def]
      simp only [hn1, if_false]
      rw [if_neg hbreak, dif_pos hv]
      exact heq
  | case4 visited n d c rest =>
    rename_i n1 nd hbreak hv hnone
    intro hn hd hsv hsq hkq hclo hcov hnd
    have hc := hkq c (List.mem_cons_self _ _)
    rw [hnone] at hc
    simp at hc
  | case5 visited n d c rest =>
    rename_i n1 nd hbreak hv deps hdeps ih
    intro hn hd hsv hsq hkq hclo hcov hnd
    unfold_let nd n1 at hbreak ih
    have hreach_c : Reaches g root c := hsq c (List.mem_cons_self _ _)
    have hsv' : ∀ x ∈ visited ++ [c], Reaches g root x := by
      intro x hx
      rcases List.mem_append.mp hx with hx | hx
      · exact hsv x hx
      · rw [List.mem_singleton] at hx
        subst hx
        exact hreach_c
    have hsq' : ∀ x ∈ rest ++ deps, Reaches g root x := by
      intro x hx
      rcases List.mem_append.mp hx with hx | hx
      · exact hsq x (List.mem_cons_of_mem _ hx)
      · exact Reaches.step hreach_c ((edgeB_iff_of_lookup g c x deps hdeps).mpr hx)
    have hkq' : ∀ x ∈ rest ++ deps, (lookupAdj g x).isSome = true := by
      intro x hx
      rcases List.mem_append.mp hx with hx | hx
      · exact hkq x (List.mem_cons_of_mem _ hx)
      · exact closedB_spec g hclosed c deps hdeps x hx
    have hclo' : ∀ x ∈ visited ++ [c], ∀ y, edgeB g x y = true →
        (y ∈ visited ++ [c] ∨ y ∈ rest ++ deps) := by
      intro x hx y hy
      rcases List.mem_append.mp hx with hx | hx
      · rcases hclo x hx y hy with h | h
        · exact Or.inl (List.mem_append_left _ h)
        · rcases List.mem_cons.mp h with rfl | h'
          · exact Or.inl (List.mem_append_right _ (List.mem_singleton_self _))
          · exact Or.inr (List.mem_append_left _ h')
      · rw [List.mem_singleton] at hx
        subst hx
        exact Or.inr (List.mem_append_right _ ((edgeB_iff_of_lookup g x y deps hdeps).mp hy))
    have hcov' : root ∈ visited ++ [c] ∨ root ∈ rest ++ deps := by
      rcases hcov with h | h
      · exact Or.inl (List.mem_append_left _ h)
      · rcases List.mem_cons.mp h with rfl | h'
        · exact Or.inl (List.mem_append_right _ (List.mem_singleton_self _))
        · exact Or.inr (List.mem_append_left _ h')
    have hnd' : (visited ++ [c]).Nodup := by
      rw [List.nodup_append]
      exact ⟨hnd, List.nodup_singleton _, by simpa [List.disjoint_singleton] using hv⟩
    by_cases hn1 : n - 1 = 0
    · rw [dif_pos hn1] at ih hbreak
      dsimp only at ih hbreak
      have hlen : (1 : Int) ≤ ((c :: rest).length : Int) := by
        simp only [List.length_cons]
        omega
      have hdpos : (0 : Int) ≤ d + 1 := by
        rcases hd with hd | ⟨hd1, hd2⟩ <;> omega
      obtain ⟨res, heq, h1, h2, h3, h4⟩ := ih hlen (Or.inl hdpos)
        hsv' hsq' hkq' hclo' hcov' hnd'
      refine ⟨res, ?_, h1, h2, h3, h4⟩
      rw [bfsLoop.eq_def]
      simp only [hn1, if_true, List.length_cons]
      rw [if_neg hbreak, dif_neg hv]
      split
      · rename_i h2'
        rw [hdeps] at h2'
        cases h2'
      · rename_i deps' h2'
        rw [hdeps] at h2'
        cases h2'
        exact heq
    · rw [dif_neg hn1] at ih hbreak
      dsimp only at ih hbreak
      have hn1' : (1 : Int) ≤ n - 1 := by omega
      have hdpos : (0 : Int) ≤ d := by
        rcases hd with hd | ⟨hd1, hd2⟩ <;> omega
      obtain ⟨res, heq, h1, h2, h3, h4⟩ := ih hn1' (Or.inl hdpos)
        hsv' hsq' hkq' hclo' hcov' hnd'
      refine ⟨res, ?_, h1, h2, h3, h4⟩
      rw [bfsLoop.eq_def]
      simp only [hn1, if_false]
      rw [if_neg hbreak, dif_neg hv]
      split
      · rename_i h2'
        rw [hdeps] at h2'
        cases h2'
      · rename_i deps' h2'
        rw [hdeps] at h2'
        cases h2'
        exact heq

/-- Claim C7 (amended): for a closed dependency graph containing the root,
`getTransitiveDependencies` with depth at most `-2` (in particular the
default `-100` used when the option is omitted) is unbounded: it succeeds and
returns, without duplicates, exactly the packages reachable from the root,
the root itself excluded. -/
theorem claim_C7_unbounded_walker (g : List (String × List String)) (root : String)
    (depth : Int) (hclosed : closedB g = true)
    (hroot : (lookupAdj g root).isSome = true) (hdepth : depth ≤ -2) :
    ∃ res, getTransitiveDependencies root depth g = Except.ok res
      ∧ res.Nodup
      ∧ (∀ x, x ∈ res ↔ (Reaches g root x ∧ x ≠ root)) := by
  obtain ⟨res₀, heq, hnd, hsound, hclo, hcov⟩ :=
    bfsLoop_correct g depth root hclosed hdepth [] [root] 1 (-1)
      (by omega) (Or.inr ⟨rfl, rfl⟩)
      (fun x hx => absurd hx (List.not_mem_nil x))
      (by
        intro x hx
        rw [List.mem_singleton] at hx
        subst hx
        exact Reaches.refl x)
      (by
        intro x hx
        rw [List.mem_singleton] at hx
        subst hx
        exact hroot)
      (fun x hx => absurd hx (List.not_mem_nil x))
      (Or.inr (List.mem_singleton_self root)) List.nodup_nil
  have hcomplete : ∀ y, Reaches g root y → y ∈ res₀ := by
    intro y hy
    induction hy with
    | refl => exact hcov
    | step hr he ih => exact hclo _ ih _ he
  refine ⟨res₀.erase root, ?_, hnd.erase root, ?_⟩
  · unfold getTransitiveDependencies
    rw [heq]
  · intro x
    constructor
    · intro hx
      have hx' := (List.Nodup.mem_erase_iff hnd).mp hx
      exact ⟨hsound x hx'.2, hx'.1⟩
    · rintro ⟨hreach, hne⟩
      exact (List.Nodup.mem_erase_iff hnd).mpr ⟨hne, hcomplete x hreach⟩

/-- Witness for C7 (amended) on a two-node cyclic graph at the default
depth `-100`. -/
theorem claim_C7_unbounded_walker_witness :
    ∃ res, getTransitiveDependencies "a" (-100) [("a", ["b"]), ("b", ["a"])]
        = Except.ok res
      ∧ res.Nodup
      ∧ (∀ x, x ∈ res ↔ (Reaches [("a", ["b"]), ("b", ["a"])] "a" x ∧ x ≠ "a")) :=
  claim_C7_unbounded_walker [("a", ["b"]), ("b", ["a"])] "a" (-100)
    (by decide) (by decide) (by decide)

/-- Counterexample for claim C7 as stated: at depth `-1` (a negative depth)
the walker returns the empty set even though `b` is reachable from `a`,
because `currentDepth` reaches `0 = depth + 1` on the very first iteration
and the loop breaks before visiting anything. -/
theorem claim_C7_counterexample :
    getTransitiveDependencies "a" (-1) [("a", ["b"]), ("b", [])] = Except.ok []
    ∧ Reaches [("a", ["b"]), ("b", [])] "a" "b"
    ∧ ("b" : String) ≠ "a" := by
  refine ⟨?_, Reaches.step (Reaches.refl "a") (by decide), by decide⟩
  unfold getTransitiveDependencies
  rw [bfsLoop.eq_def]
  norm_num

/-- Counterexample for claim C6 as stated: a `package.json` sitting under a
test directory is rejected by the mandatory-changeset file filter, because
the test-directory exclusion is applied before the privileged-filename
check. -/
theorem claim_C6_counterexample :
    strEndsWith "packages/foo/src/__tests__/package.json" "package.json" = true
    ∧ isRelevantToMandatoryChangeset "packages/foo/src/__tests__/package.json" = false := by
  constructor
  · decide
  · decide

/-- Claim C6 (amended): a changed file ending in `package.json` or
`tsconfig.json` is kept by the mandatory-changeset filter regardless of its
location within the package, provided the path does not match the
test-directory or test-file exclusion patterns, which take precedence. -/
theorem claim_C6_privileged_files_relevant (f : String)
    (hpriv : (strEndsWith f "package.json" || strEndsWith f "tsconfig.json") = true)
    (hdir : matchesTestDir f = false) (hfile : matchesTestFile f = false) :
    isRelevantToMandatoryChangeset f = true := by
  simp [isRelevantToMandatoryChangeset, hdir, hfile, hpriv]

/-- Witness for C6 (amended) on a `tsconfig.json` outside the package's
source subtree. -/
theorem claim_C6_privileged_files_relevant_witness :
    ((strEndsWith "packages/foo/build/configs/tsconfig.json" "package.json" ||
        strEndsWith "packages/foo/build/configs/tsconfig.json" "tsconfig.json") = true)
    ∧ isRelevantToMandatoryChangeset "packages/foo/build/configs/tsconfig.json" = true :=
  ⟨by decide, claim_C6_privileged_files_relevant _ (by decide) (by decide) (by decide)⟩

/-! ### State idempotence of the propagator (claim C2) -/

theorem lookupPackage_mem (pkgs : List Package) (n : Option String) (P : Package)
    (h : lookupPackage pkgs n = some P) : P ∈ pkgs := by
  unfold lookupPackage at h
  exact List.mem_reverse.mp (List.mem_of_find?_eq_some h)

theorem lookupPackage_name (pkgs : List Package) (n : Option String) (P : Package)
    (h : lookupPackage pkgs n = some P) : P.packageJson.name = n := by
  unfold lookupPackage at h
  simpa using List.find?_some h

theorem mem_setFirstMatching (n : Option String) (dt : DepType)
    (m : List (String × String)) (l : List Package) (p' : Package)
    (h : p' ∈ setFirstMatching n dt m l) :
    p' ∈ l ∨ ∃ P, l.find? (fun p => p.packageJson.name == n) = some P
      ∧ p' = { P with packageJson := P.packageJson.setDepMap dt m } := by
  induction l with
  | nil => exact absurd h (List.not_mem_nil p')
  | cons q rest ih =>
    by_cases hq : q.packageJson.name = n
    · simp only [setFirstMatching, hq, beq_self_eq_true, if_true, List.mem_cons] at h
      rcases h with h | h
      · exact Or.inr ⟨q, List.find?_cons_of_pos _ (by simpa using hq), h⟩
      · exact Or.inl (List.mem_cons_of_mem _ h)
    · simp only [setFirstMatching, hq, beq_iff_eq, if_false, List.mem_cons] at h
      rcases h with h | h
      · exact Or.inl (by simp [h])
      · rcases ih h with h' | ⟨P, hP, hP'⟩
        · exact Or.inl (List.mem_cons_of_mem _ h')
        · refine Or.inr ⟨P, ?_, hP'⟩
          rw [List.find?_cons_of_neg _ (by simpa using hq)]
          exact hP

theorem mem_updateLastPackage (pkgs : List Package) (n : Option String) (dt : DepType)
    (m : List (String × String)) (p' : Package)
    (h : p' ∈ updateLastPackage pkgs n dt m) :
    p' ∈ pkgs ∨ ∃ P, lookupPackage pkgs n = some P
      ∧ p' = { P with packageJson := P.packageJson.setDepMap dt m } := by
  unfold updateLastPackage at h
  rw [List.mem_reverse] at h
  rcases mem_setFirstMatching _ _ _ _ _ h with h' | ⟨P, hP, hP'⟩
  · exact Or.inl (List.mem_reverse.mp h')
  · exact Or.inr ⟨P, hP, hP'⟩

/-- In a plan with distinct release names, a target value for key `k` and any
release `D` of the plan satisfy the side condition of `HasRange_step`. -/
theorem TargetVal_hkv (plan : List Release) (hnp : (plan.map Release.name).Nodup)
    (D : Release) (hD : D ∈ plan) (k v : String) (htv : TargetVal plan k v) :
    D.name ≠ k ∨ ("^" ++ D.newVersion) = v := by
  by_cases hk : D.name = k
  · right
    obtain ⟨D', hD', _, hname', hval'⟩ := htv
    have : D' = D := List.inj_on_of_nodup_map hnp hD' hD (by rw [hname', hk])
    rw [hval', this]
  · exact Or.inl hk

theorem setFirstMatching_noop (n : Option String) (dt : DepType)
    (m : List (String × String)) (l : List Package)
    (h : ∀ P, l.find? (fun p => p.packageJson.name == n) = some P →
      P.packageJson.depMap dt = some m) :
    setFirstMatching n dt m l = l := by
  induction l with
  | nil => rfl
  | cons q rest ih =>
    by_cases hq : q.packageJson.name = n
    · have hqP := h q (List.find?_cons_of_pos _ (by simpa using hq))
      simp only [setFirstMatching, hq, beq_self_eq_true, if_true]
      rw [setDepMap_of_depMap_eq _ _ _ hqP]
    · simp only [setFirstMatching, hq, beq_iff_eq, if_false]
      rw [ih]
      intro P hP
      refine h P ?_
      rw [List.find?_cons_of_neg _ (by simpa using hq)]
      exact hP

/-- Writing back a package's own current dependency map is the identity. -/
theorem updateLastPackage_noop (pkgs : List Package) (n : Option String) (dt : DepType)
    (m : List (String × String)) (P : Package) (hP : lookupPackage pkgs n = some P)
    (hm : P.packageJson.depMap dt = some m) :
    updateLastPackage pkgs n dt m = pkgs := by
  unfold updateLastPackage
  rw [setFirstMatching_noop, List.reverse_reverse]
  intro Q hQ
  unfold lookupPackage at hP
  rw [hP] at hQ
  cases hQ
  exact hm

/-- Inverse of `graphAdd`: an edge of the extended graph is an old edge or
the added one. -/
theorem mem_graphGet_graphAdd_inv (g : List (String × List Dependency)) (k k' : String)
    (d e : Dependency) (he : e ∈ (graphGet (graphAdd g k' d) k).getD []) :
    e ∈ (graphGet g k).getD [] ∨ (e = d ∧ k = k') := by
  by_cases hk : k = k'
  · subst hk
    rw [graphGet_graphAdd_self] at he
    rcases List.mem_append.mp he with h | h
    · exact Or.inl h
    · rw [List.mem_singleton] at h
      exact Or.inr ⟨h, rfl⟩
  · rw [graphGet_graphAdd_ne _ _ _ _ hk] at he
    exact Or.inl he

/-- Inverse of the entry fold: an edge of the folded graph is an old edge or
comes from one of the folded entries. -/
theorem foldl_graphAdd_inv (pkgname : Option String) (dt : DepType)
    (entries : List (String × String)) :
    ∀ (g : List (String × List Dependency)) (k : String) (e : Dependency),
      e ∈ (graphGet (entries.foldl
        (fun g ent => graphAdd g ent.1
          { name := pkgname, versionRange := ent.2, depType := dt }) g) k).getD [] →
      e ∈ (graphGet g k).getD []
        ∨ ∃ ent ∈ entries, ent.1 = k
            ∧ e = { name := pkgname, versionRange := ent.2, depType := dt } := by
  induction entries with
  | nil => exact fun g k e he => Or.inl he
  | cons ent rest ih =>
    intro g k e he
    rw [List.foldl_cons] at he
    rcases ih _ _ _ he with h | ⟨ent', hent', h1, h2⟩
    · rcases mem_graphGet_graphAdd_inv _ _ _ _ _ h with h' | ⟨he', hk⟩
      · exact Or.inl h'
      · exact Or.inr ⟨ent, List.mem_cons_self _ _, hk.symm, he'⟩
    · exact Or.inr ⟨ent', List.mem_cons_of_mem _ hent', h1, h2⟩

/-- Inverse of the graph builder: every edge of the dependents graph comes
from an actual dependency entry of some package of the set. -/
theorem getDependentsGraphList_edge_inv (packages : List Package) (k : String)
    (e : Dependency)
    (he : e ∈ (graphGet (getDependentsGraphList packages) k).getD []) :
    ∃ p ∈ packages, p.packageJson.name = e.name
      ∧ (k, e.versionRange) ∈ (p.packageJson.depMap e.depType).getD [] := by
  unfold getDependentsGraphList at he
  suffices haux : ∀ (pkgs : List Package) (g : List (String × List Dependency)),
      e ∈ (graphGet (pkgs.foldl
        (fun g pkg =>
          dependencyTypes.foldl
            (fun g depType =>
              ((pkg.packageJson.depMap depType).getD []).foldl
                (fun g ent =>
                  graphAdd g ent.1
                    { name := pkg.packageJson.name, versionRange := ent.2,
                      depType := depType })
                g)
            g) g) k).getD [] →
      e ∈ (graphGet g k).getD []
        ∨ ∃ p ∈ pkgs, p.packageJson.name = e.name
            ∧ (k, e.versionRange) ∈ (p.packageJson.depMap e.depType).getD [] by
    rcases haux packages [] he with h | h
    · simp [graphGet] at h
    · exact h
  intro pkgs
  induction pkgs with
  | nil => exact fun g he' => Or.inl he'
  | cons pkg rest ih =>
    intro g he'
    rw [List.foldl_cons] at he'
    rcases ih _ he' with h | ⟨p, hp, h1, h2⟩
    · simp only [dependencyTypes, List.foldl_cons, List.foldl_nil] at h
      rcases foldl_graphAdd_inv _ _ _ _ _ _ h with h' | ⟨ent, hent, hk, hee⟩
      · rcases foldl_graphAdd_inv _ _ _ _ _ _ h' with h'' | ⟨ent, hent, hk, hee⟩
        · rcases foldl_graphAdd_inv _ _ _ _ _ _ h'' with h3 | ⟨ent, hent, hk, hee⟩
          · exact Or.inl h3
          · refine Or.inr ⟨pkg, List.mem_cons_self _ _, by rw [hee], ?_⟩
            rw [hee]
            simpa [← hk] using hent
        · refine Or.inr ⟨pkg, List.mem_cons_self _ _, by rw [hee], ?_⟩
          rw [hee]
          simpa [← hk] using hent
      · refine Or.inr ⟨pkg, List.mem_cons_self _ _, by rw [hee], ?_⟩
        rw [hee]
        simpa [← hk] using hent
    · exact Or.inr ⟨p, List.mem_cons_of_mem _ hp, h1, h2⟩

/-- One propagator write step preserves the entry provenance invariant. -/
theorem EntryInv_step (plan : List Release) (hnp : (plan.map Release.name).Nodup)
    (S0 S : List Package) (hInv : EntryInv plan S0 S)
    (D : Release) (hD : D ∈ plan) (hminor : D.type = "minor")
    (n₀ : Option String) (dt₀ : DepType) (m₀ : List (String × String)) (P₀ : Package)
    (hP : lookupPackage S n₀ = some P₀) (hm : P₀.packageJson.depMap dt₀ = some m₀) :
    EntryInv plan S0
      (updateLastPackage S n₀ dt₀ (setKey m₀ D.name ("^" ++ D.newVersion))) := by
  intro p' hp' dt k v hv
  rcases mem_updateLastPackage _ _ _ _ _ hp' with hmem | ⟨P₁, hP₁, rfl⟩
  · rcases hInv p' hmem dt k v hv with h | ⟨htv, hhr⟩
    · exact Or.inl h
    · exact Or.inr ⟨htv, HasRange_step S n₀ dt₀ m₀ P₀ _ _ hP hm
        (TargetVal_hkv plan hnp D hD k v htv) hhr⟩
  · rw [hP] at hP₁
    replace hP₁ : P₁ = P₀ := (Option.some.inj hP₁).symm
    rw [hP₁] at hv ⊢
    have hname : ({ P₀ with
        packageJson := P₀.packageJson.setDepMap dt₀
          (setKey m₀ D.name ("^" ++ D.newVersion)) } : Package).packageJson.name
        = P₀.packageJson.name := name_setDepMap _ _ _
    by_cases hdt : dt = dt₀
    · subst hdt
      have hv' : (k, v) ∈ setKey m₀ D.name ("^" ++ D.newVersion) := by
        have h0 :
            ({ P₀ with
                packageJson :=
                  P₀.packageJson.setDepMap dt (setKey m₀ D.name ("^" ++ D.newVersion)) } :
              Package).packageJson.depMap dt
              = some (setKey m₀ D.name ("^" ++ D.newVersion)) :=
          depMap_setDepMap_self _ _ _
        rw [h0] at hv
        simpa using hv
      rcases mem_setKey _ _ _ _ hv' with hvm | hvkv
      · have hvP₀ : (k, v) ∈ (P₀.packageJson.depMap dt).getD [] := by
          rw [hm]
          simpa using hvm
        rcases hInv P₀ (lookupPackage_mem _ _ _ hP) dt k v hvP₀ with h | ⟨htv, hhr⟩
        · left
          obtain ⟨p₀, h1, h2, h3⟩ := h
          exact ⟨p₀, h1, by rw [hname, h2], h3⟩
        · right
          refine ⟨htv, ?_⟩
          rw [hname]
          exact HasRange_step S n₀ dt m₀ P₀ _ _ hP hm
            (TargetVal_hkv plan hnp D hD k v htv) hhr
      · rw [Prod.mk.injEq] at hvkv
        obtain ⟨rfl, rfl⟩ := hvkv
        right
        refine ⟨⟨D, hD, hminor, rfl, rfl⟩, ?_⟩
        rw [hname, lookupPackage_name S n₀ P₀ hP]
        refine ⟨_, lookupPackage_updateLastPackage_self S n₀ dt _ P₀ hP, ?_⟩
        show lookupKey (((P₀.packageJson.setDepMap dt
            (setKey m₀ D.name ("^" ++ D.newVersion))).depMap dt).getD []) D.name
          = some ("^" ++ D.newVersion)
        rw [depMap_setDepMap_self]
        simpa using lookupKey_setKey_self m₀ D.name ("^" ++ D.newVersion)
    · have hv' : (k, v) ∈ (P₀.packageJson.depMap dt).getD [] := by
        rw [← depMap_setDepMap_ne P₀.packageJson dt₀ dt
          (setKey m₀ D.name ("^" ++ D.newVersion)) hdt]
        exact hv
      rcases hInv P₀ (lookupPackage_mem _ _ _ hP) dt k v hv' with h | ⟨htv, hhr⟩
      · left
        obtain ⟨p₀, h1, h2, h3⟩ := h
        exact ⟨p₀, h1, by rw [hname, h2], h3⟩
      · right
        refine ⟨htv, ?_⟩
        rw [hname]
        exact HasRange_step S n₀ dt₀ m₀ P₀ _ _ hP hm
          (TargetVal_hkv plan hnp D hD k v htv) hhr

/-- The dependent loop of one minor release preserves the entry provenance
invariant. -/
theorem updateDependentsGo_EntryInv (plan : List Release)
    (hnp : (plan.map Release.name).Nodup) (S0 : List Package)
    (D : Release) (hD : D ∈ plan) (hminor : D.type = "minor")
    (deps : List Dependency) :
    ∀ (S : List Package) (acc : List (Option String))
      (S' : List Package) (acc' : List (Option String)),
      updateDependentsGo D plan deps S acc = Except.ok (S', acc') →
      EntryInv plan S0 S → EntryInv plan S0 S' := by
  induction deps with
  | nil =>
    intro S acc S' acc' h hInv
    simp only [updateDependentsGo, Except.ok.injEq, Prod.mk.injEq] at h
    exact h.1 ▸ hInv
  | cons dep rest ih =>
    intro S acc S' acc' h hInv
    simp only [updateDependentsGo] at h
    split at h
    · split at h
      · exact ih _ _ _ _ h hInv
      · rcases hP : lookupPackage S dep.name with _ | dependentPkg <;> simp only [hP] at h
        · cases h
        · rcases hm : dependentPkg.packageJson.depMap dep.depType with _ | dependentDeps <;>
            simp only [hm] at h
          · cases h
          · exact ih _ _ _ _ h
              (EntryInv_step plan hnp S0 S hInv D hD hminor _ _ _ _ hP hm)
    · exact ih _ _ _ _ h hInv

/-- The release loop preserves the entry provenance invariant. -/
theorem processReleases_EntryInv (plan : List Release)
    (hnp : (plan.map Release.name).Nodup) (S0 : List Package)
    (graph : List (String × List Dependency)) (rs : List Release)
    (hsub : ∀ r ∈ rs, r ∈ plan) :
    ∀ (S : List Package) (upd : List (Option String))
      (S' : List Package) (upd' : List (Option String)),
      processReleases graph plan rs S upd = Except.ok (S', upd') →
      EntryInv plan S0 S → EntryInv plan S0 S' := by
  induction rs with
  | nil =>
    intro S upd S' upd' h hInv
    simp only [processReleases, Except.ok.injEq, Prod.mk.injEq] at h
    exact h.1 ▸ hInv
  | cons r rest ih =>
    intro S upd S' upd' h hInv
    have hsub' : ∀ r' ∈ rest, r' ∈ plan := fun r' hr' => hsub r' (List.mem_cons_of_mem _ hr')
    simp only [processReleases] at h
    split at h
    · rename_i hc
      have hrminor : r.type = "minor" := by simpa using hc
      rcases hg : graphGet graph r.name with _ | deps <;> simp only [hg] at h
      · exact ih hsub' _ _ _ _ h hInv
      · rcases hu : updateDependentsGo r plan deps S [] with er | pr <;> simp only [hu] at h
        · cases h
        · obtain ⟨S₁, names⟩ := pr
          exact ih hsub' _ _ _ _ h
            (updateDependentsGo_EntryInv plan hnp S0 r
              (hsub r (List.mem_cons_self _ _)) hrminor deps _ _ _ _ hu hInv)
    · exact ih hsub' _ _ _ _ h hInv

/-- A successful propagator run saturates the package set: every caret entry
of an unreleased dependent whose key is minor-released reads back as the
target range. -/
theorem updateMinVersions_saturates (packages : List Package) (plan : List Release)
    (res : RunResult) (hnp : (plan.map Release.name).Nodup)
    (hrun : updateMinVersions packages plan = Except.ok res) :
    Sat plan res.pkgs := by
  obtain ⟨hpr, _⟩ := updateMinVersions_ok_destruct packages plan res hrun
  have hInv : EntryInv plan packages res.pkgs :=
    processReleases_EntryInv plan hnp packages (getDependentsGraphList packages) plan
      (fun r hr => hr) packages [] res.pkgs res.written hpr
      (fun p hp dt k v hv => Or.inl ⟨p, hp, rfl, hv⟩)
  intro p hp dt k v hv hcaret hunrel D hD hminor hname
  rcases hInv p hp dt k v hv with ⟨p₀, hp₀, hname₀, hv₀⟩ | ⟨htv, hhr⟩
  · subst hname
    have hedge := getDependentsGraphList_edge packages p₀ hp₀ dt D.name v hv₀
    rcases hgr : graphGet (getDependentsGraphList packages) D.name with _ | deps <;>
      rw [hgr] at hedge
    · simp at hedge
    · simp only [Option.getD_some] at hedge
      have hest := processReleases_establishes (getDependentsGraphList packages) plan plan
        D hminor deps hgr _ hedge
        (by
          intro r hr
          rw [hname₀] at hr
          exact hunrel r hr)
        hcaret (hsame_of_nodup plan D hD hnp)
        packages [] res.pkgs res.written hpr hD
      have := hest.1
      rw [hname₀] at this
      exact this
  · obtain ⟨D', hD', hmin', hname', hval'⟩ := htv
    have hDD : D' = D := List.inj_on_of_nodup_map hnp hD' hD (by rw [hname', hname])
    rw [hval', hDD] at hhr
    exact hhr

/-- On a saturated package set, the dependent loop of a minor release leaves
the state unchanged: every update it performs rewrites a range to the value
it already has. -/
theorem updateDependentsGo_noop (plan : List Release) (D : Release)
    (hD : D ∈ plan) (hminor : D.type = "minor") (S1 : List Package)
    (hsat : Sat plan S1) :
    ∀ (deps : List Dependency),
      (∀ e ∈ deps, ∃ p ∈ S1, p.packageJson.name = e.name
        ∧ (D.name, e.versionRange) ∈ (p.packageJson.depMap e.depType).getD []) →
      ∀ (acc : List (Option String)),
        ∃ acc', updateDependentsGo D plan deps S1 acc = Except.ok (S1, acc') := by
  intro deps
  induction deps with
  | nil => exact fun _ acc => ⟨acc, rfl⟩
  | cons e rest ih =>
    intro hdeps acc
    have hdeps' : ∀ e' ∈ rest, ∃ p ∈ S1, p.packageJson.name = e'.name
        ∧ (D.name, e'.versionRange) ∈ (p.packageJson.depMap e'.depType).getD [] :=
      fun e' he' => hdeps e' (List.mem_cons_of_mem _ he')
    simp only [updateDependentsGo]
    by_cases hsu : (match lookupRelease plan e.name with
        | none => true
        | some er => er.oldVersion == er.newVersion) = true
    · rw [if_pos hsu]
      by_cases hcar : strStartsWith e.versionRange "^" = true
      · rw [if_neg (by simp [hcar])]
        obtain ⟨p, hp, hpname, hentry⟩ := hdeps e (List.mem_cons_self _ _)
        have hunrel : ∀ r, lookupRelease plan p.packageJson.name = some r →
            r.oldVersion = r.newVersion := by
          intro r hr
          rw [hpname] at hr
          rcases hlr : lookupRelease plan e.name with _ | er <;> rw [hlr] at hr
          · cases hr
          · cases hr
            rw [hlr] at hsu
            simpa using hsu
        have hhr := hsat p hp e.depType D.name e.versionRange hentry hcar hunrel
          D hD hminor rfl
        rw [hpname] at hhr
        obtain ⟨P', hlook, hkey⟩ := hhr
        simp only [hlook]
        rcases hdm : P'.packageJson.depMap e.depType with _ | m
        · rw [hdm] at hkey
          simp [lookupKey] at hkey
        · simp only [hdm]
          have hkey' : lookupKey m D.name = some ("^" ++ D.newVersion) := by
            rw [hdm] at hkey
            simpa using hkey
          rw [setKey_of_lookupKey_eq m D.name _ hkey',
            updateLastPackage_noop S1 e.name e.depType m P' hlook hdm]
          exact ih hdeps' (acc ++ [e.name])
      · have hcar' : strStartsWith e.versionRange "^" = false := by
          simpa using hcar
        rw [if_pos (by simp [hcar'])]
        exact ih hdeps' acc
    · rw [if_neg hsu]
      exact ih hdeps' acc

/-- On a saturated package set, the whole release loop leaves the state
unchanged (while still accumulating updated names). -/
theorem processReleases_noop (plan : List Release) (S1 : List Package)
    (hsat : Sat plan S1) :
    ∀ (rs : List Release), (∀ r ∈ rs, r ∈ plan) →
      ∀ (upd : List (Option String)),
        ∃ upd', processReleases (getDependentsGraphList S1) plan rs S1 upd
          = Except.ok (S1, upd') := by
  intro rs
  induction rs with
  | nil => exact fun _ upd => ⟨upd, rfl⟩
  | cons r rest ih =>
    intro hsub upd
    have hsub' : ∀ r' ∈ rest, r' ∈ plan :=
      fun r' hr' => hsub r' (List.mem_cons_of_mem _ hr')
    simp only [processReleases]
    by_cases hc : (r.type == "minor") = true
    · rw [if_pos hc]
      have hrminor : r.type = "minor" := by simpa using hc
      rcases hg : graphGet (getDependentsGraphList S1) r.name with _ | deps <;>
        simp only [hg]
      · exact ih hsub' upd
      · have hdeps : ∀ e ∈ deps, ∃ p ∈ S1, p.packageJson.name = e.name
            ∧ (r.name, e.versionRange) ∈ (p.packageJson.depMap e.depType).getD [] := by
          intro e he
          refine getDependentsGraphList_edge_inv S1 r.name e ?_
          rw [hg]
          simpa using he
        obtain ⟨acc', hacc⟩ := updateDependentsGo_noop plan r
          (hsub r (List.mem_cons_self _ _)) hrminor S1 hsat deps hdeps []
        simp only [hacc]
        exact ih hsub' (acc'.foldl addUnique upd)
    · rw [if_neg hc]
      exact ih hsub' upd

/-- On a saturated package set, a propagator run succeeds and leaves the
package state unchanged. -/
theorem updateMinVersions_noop_of_sat (S1 : List Package) (plan : List Release)
    (hsat : Sat plan S1) :
    ∃ res₂, updateMinVersions S1 plan = Except.ok res₂ ∧ res₂.pkgs = S1 := by
  obtain ⟨upd', hpr⟩ := processReleases_noop plan S1 hsat plan (fun r hr => hr) []
  exact ⟨⟨S1, upd', !upd'.isEmpty⟩, by simp [updateMinVersions, getDependentsGraph, hpr], rfl⟩

/-- Claim C2 (amended): on the package set left by a successful first run,
a second run with the same release plan (with pairwise-distinct release
names) succeeds and leaves every package manifest unchanged in content —
every affected caret range already equals the target `'^' + newVersion`.
The second run is, however, not free of side effects: it still re-writes the
affected manifests and re-commits (see the counterexample theorem). -/
theorem claim_C2_second_run_state_idempotent (packages : List Package)
    (plan : List Release) (res₁ : RunResult)
    (hnp : (plan.map Release.name).Nodup)
    (hrun1 : updateMinVersions packages plan = Except.ok res₁) :
    ∃ res₂, updateMinVersions res₁.pkgs plan = Except.ok res₂
      ∧ res₂.pkgs = res₁.pkgs :=
  updateMinVersions_noop_of_sat res₁.pkgs plan
    (updateMinVersions_saturates packages plan res₁ hnp hrun1)

/-- Witness for C2 (amended) on a one-dependent scenario. -/
theorem claim_C2_second_run_state_idempotent_witness :
    ∃ res₂, updateMinVersions
        (RunResult.mk
          [Package.mk "d" ⟨some "y", "1.0.0", some [("a", "^1.1.0")], none, none⟩]
          [some "y"] true).pkgs
        [Release.mk "a" "1.0.0" "1.1.0" "minor"]
      = Except.ok res₂
      ∧ res₂.pkgs = (RunResult.mk
          [Package.mk "d" ⟨some "y", "1.0.0", some [("a", "^1.1.0")], none, none⟩]
          [some "y"] true).pkgs :=
  claim_C2_second_run_state_idempotent
    [Package.mk "d" ⟨some "y", "1.0.0", some [("a", "^1.0.0")], none, none⟩]
    [Release.mk "a" "1.0.0" "1.1.0" "minor"]
    (RunResult.mk
      [Package.mk "d" ⟨some "y", "1.0.0", some [("a", "^1.1.0")], none, none⟩]
      [some "y"] true)
    (by decide) rfl

/-- Counterexample for claim C2 as stated: the second run is not a no-op in
effects.  `updateDependents` pushes the dependent and rewrites the range
without comparing it to the target first, so the already-saturated caret
range is rewritten again (with identical content), the dependent is written
again and a second commit is made. -/
theorem claim_C2_counterexample :
    updateMinVersions
        [Package.mk "d" ⟨some "y", "1.0.0", some [("a", "^1.0.0")], none, none⟩]
        [Release.mk "a" "1.0.0" "1.1.0" "minor"]
      = Except.ok
          (RunResult.mk
            [Package.mk "d" ⟨some "y", "1.0.0", some [("a", "^1.1.0")], none, none⟩]
            [some "y"] true)
    ∧ updateMinVersions
        [Package.mk "d" ⟨some "y", "1.0.0", some [("a", "^1.1.0")], none, none⟩]
        [Release.mk "a" "1.0.0" "1.1.0" "minor"]
      = Except.ok
          (RunResult.mk
            [Package.mk "d" ⟨some "y", "1.0.0", some [("a", "^1.1.0")], none, none⟩]
            [some "y"] true)
    ∧ ([some "y"] : List (Option String)) ≠ []
    ∧ (RunResult.mk
        [Package.mk "d" ⟨some "y", "1.0.0", some [("a", "^1.1.0")], none, none⟩]
        [some "y"] true).committed = true :=
  ⟨rfl, rfl, by decide, rfl⟩

end AFCS
